import Mathlib

/-!
Verification of the Blancco report extraction pipeline
(`blancco_api_to_db.py` / `blancco_api_to_db_orig.py`).

The Python dictionaries produced by `flatten` are modelled as association
lists from string keys to optional text values (`Rec`); element trees from
`lxml` are modelled by the inductive `Xml`.  Every definition follows the
corresponding Python function line by line; comments reference the source.
-/

namespace Blancco

/-- A flat record: a Python `dict` mapping dotted keys to optional text
(`element.text` may be `None`).  Insertion order is kept, as in `dict`. -/
abbrev Rec := List (String × Option String)

/-- `d[k]`-style lookup: first binding of `k` (records keep keys unique). -/
def lookupKey : Rec → String → Option (Option String)
  | [], _ => none
  | (k', v) :: t, k => if k = k' then some v else lookupKey t k

/-- Python `d[k] = v`: overwrite in place if the key exists, else append. -/
def setKey : Rec → String → Option String → Rec
  | [], k, v => [(k, v)]
  | (k', v') :: t, k, v => if k' = k then (k, v) :: t else (k', v') :: setKey t k v

/-- Python `d.update(other)`: every binding of `other` is written into `d`,
overwriting existing keys (last writer wins). -/
def pyUpdate (m add : Rec) : Rec :=
  add.foldl (fun acc p => setKey acc p.1 p.2) m

/-- The merge used in `flatten`:
`ret.update({k: v for k, v in result.items() if k not in ret})` —
only keys not already present are added (first-seen wins). -/
def updateNoOverwrite (acc add : Rec) : Rec :=
  acc ++ add.filter (fun p => lookupKey acc p.1 = none)

/-- The keys of a record, in order. -/
def keysOf (m : Rec) : List String := m.map Prod.fst

/-- Record invariant: no key occurs twice (true of every Python dict). -/
def NodupKeys (m : Rec) : Prop := (keysOf m).Nodup

/-- An `lxml` element: a tag, an optional text, and a list of children.
Attributes are not modelled; `reformat_xml` runs before `flatten` and the
claims under study concern the tree after tag normalization. -/
inductive Xml where
  | node (tag : String) (text : Option String) (children : List Xml)

def Xml.tag : Xml → String
  | .node t _ _ => t

def Xml.text : Xml → Option String
  | .node _ tx _ => tx

def Xml.children : Xml → List Xml
  | .node _ _ c => c

/-- Model of Python `str.lower()` (character-wise lowering). -/
def strLower (s : String) : String := String.mk (s.data.map Char.toLower)

/-- The key written for a leaf child:
`'{}.{}'.format(prefix, element.tag).lower()`. -/
def leafKey (pre tag : String) : String := strLower (pre ++ "." ++ tag)

mutual

/-- The loop body of `flatten` for one element: if it has children, recurse
with the extended prefix and merge the result without overwriting keys
already present; otherwise assign `ret[key] = element.text` unconditionally. -/
def flattenStep : Xml → String → Rec → Rec
  | Xml.node tag tx [], pre, ret => setKey ret (leafKey pre tag) tx
  | Xml.node tag _ (c :: cs), pre, ret =>
      updateNoOverwrite ret (flattenAux (c :: cs) (pre ++ "." ++ tag) [])

/-- `flatten(xml, prefix)` from the source, with the mutable `ret` made an
explicit accumulator, iterating the loop body over the elements in order. -/
def flattenAux : List Xml → String → Rec → Rec
  | [], _, ret => ret
  | el :: rest, pre, ret => flattenAux rest pre (flattenStep el pre ret)

end

/-- `flatten(xml, prefix)`: `ret` starts as an empty `OrderedDict()`. -/
def flatten (els : List Xml) (pre : String) : Rec := flattenAux els pre []

/-! ### Basic lookup lemmas -/

theorem lookupKey_setKey (m : Rec) (k k' : String) (v : Option String) :
    lookupKey (setKey m k v) k' = if k' = k then some v else lookupKey m k' := by
  induction m with
  | nil =>
      by_cases h : k' = k <;> simp [setKey, lookupKey, h]
  | cons p t ih =>
      obtain ⟨pk, pv⟩ := p
      by_cases hk : pk = k
      · subst hk
        by_cases h : k' = pk <;> simp [setKey, lookupKey, h]
      · by_cases h : k' = pk
        · subst h
          simp [setKey, hk, lookupKey, Ne.symm hk]
        · simp [setKey, hk, lookupKey, h, ih]

theorem lookupKey_append (a b : Rec) (k : String) :
    lookupKey (a ++ b) k =
      match lookupKey a k with
      | some v => some v
      | none => lookupKey b k := by
  induction a with
  | nil => simp [lookupKey]
  | cons p t ih =>
      obtain ⟨pk, pv⟩ := p
      by_cases h : k = pk <;> simp [lookupKey, h, ih]

/-- If every binding of `k` in `l` passes the filter, filtering does not
change the lookup of `k`. -/
theorem lookupKey_filter (l : Rec) (p : String × Option String → Bool) (k : String)
    (h : ∀ x ∈ l, x.1 = k → p x = true) :
    lookupKey (l.filter p) k = lookupKey l k := by
  induction l with
  | nil => simp
  | cons x t ih =>
      obtain ⟨xk, xv⟩ := x
      by_cases hk : k = xk
      · subst hk
        have := h (k, xv) (by simp) rfl
        simp [List.filter, this, lookupKey]
      · cases hp : p (xk, xv) <;>
          simp [List.filter, hp, lookupKey, hk,
            ih (fun y hy hyk => h y (by simp [hy]) hyk)]

/-- Merging never overwrites: keys already in `acc` keep their value. -/
theorem lookupKey_updateNoOverwrite (acc add : Rec) (k : String) :
    lookupKey (updateNoOverwrite acc add) k =
      match lookupKey acc k with
      | some v => some v
      | none => lookupKey add k := by
  unfold updateNoOverwrite
  rw [lookupKey_append]
  cases h : lookupKey acc k with
  | some v => simp
  | none =>
      simp only
      exact lookupKey_filter add _ k (fun x _ hx => by simp [hx, h])

/-- First defined value in a list of lookups (first-seen-wins order). -/
def firstSome : List (Option (Option String)) → Option (Option String)
  | [] => none
  | o :: t =>
    match o with
    | some v => some v
    | none => firstSome t

theorem flattenAux_append (l1 l2 : List Xml) (pre : String) (acc : Rec) :
    flattenAux (l1 ++ l2) pre acc = flattenAux l2 pre (flattenAux l1 pre acc) := by
  induction l1 generalizing acc with
  | nil => simp [flattenAux]
  | cons c t ih =>
      obtain ⟨tag, tx, ch⟩ := c
      cases ch with
      | nil => simp [flattenAux, ih]
      | cons c0 cs => simp [flattenAux, ih]

/-- A binding survives the processing of further siblings as long as no
later *leaf* sibling carries the same key (internal siblings merge without
overwriting; leaves assign unconditionally). -/
theorem flattenAux_preserves (els : List Xml) (pre : String) (acc : Rec)
    (k : String) (v : Option String)
    (hacc : lookupKey acc k = some v)
    (h : ∀ c ∈ els, c.children = [] → leafKey pre c.tag ≠ k) :
    lookupKey (flattenAux els pre acc) k = some v := by
  induction els generalizing acc with
  | nil => simpa [flattenAux] using hacc
  | cons c t ih =>
      obtain ⟨tag, tx, ch⟩ := c
      cases ch with
      | nil =>
          have hne : leafKey pre tag ≠ k := h (Xml.node tag tx []) (by simp) rfl
          simp only [flattenAux, flattenStep]
          refine ih (setKey acc (leafKey pre tag) tx) ?_
            (fun c hc => h c (by simp [hc]))
          rw [lookupKey_setKey, if_neg (fun hk : k = leafKey pre tag => hne hk.symm)]
          exact hacc
      | cons c0 cs =>
          simp only [flattenAux, flattenStep]
          refine ih _ ?_ (fun c hc => h c (by simp [hc]))
          rw [lookupKey_updateNoOverwrite, hacc]

/-- When every child is an internal branch, the flattened value of a key is
the value from the earliest-processed branch that produces it. -/
theorem flattenAux_internal_lookup (els : List Xml) (pre : String) (acc : Rec)
    (k : String) (h : ∀ c ∈ els, c.children ≠ []) :
    lookupKey (flattenAux els pre acc) k =
      match lookupKey acc k with
      | some v => some v
      | none =>
          firstSome (els.map
            (fun c => lookupKey (flatten c.children (pre ++ "." ++ c.tag)) k)) := by
  induction els generalizing acc with
  | nil => cases hacc : lookupKey acc k <;> simp [flattenAux, firstSome, hacc]
  | cons c t ih =>
      obtain ⟨tag, tx, ch⟩ := c
      cases ch with
      | nil => exact absurd rfl (h (Xml.node tag tx []) (by simp))
      | cons c0 cs =>
          show lookupKey
              (flattenAux t pre
                (updateNoOverwrite acc (flatten (c0 :: cs) (pre ++ "." ++ tag)))) k = _
          rw [ih _ (fun c hc => h c (by simp [hc])), lookupKey_updateNoOverwrite]
          cases hacc : lookupKey acc k with
          | some v => simp
          | none =>
              cases hc : lookupKey (flatten (c0 :: cs) (pre ++ "." ++ tag)) k <;>
                simp [firstSome, Xml.children, Xml.tag, hc]

/-! ### Key discipline: lower-cased dotted keys under the root prefix -/

theorem strLower_append (a b : String) :
    strLower (a ++ b) = strLower a ++ strLower b := by
  cases a with
  | mk la =>
      cases b with
      | mk lb =>
          show String.mk ((la ++ lb).map Char.toLower)
            = String.mk (la.map Char.toLower ++ lb.map Char.toLower)
          rw [List.map_append]

theorem leafKey_eq (pre tag : String) :
    leafKey pre tag = strLower pre ++ "." ++ strLower tag := by
  have hdot : strLower "." = "." := by decide
  rw [leafKey, strLower_append, strLower_append, hdot]

/-- Every key produced by `flatten` starts with `prefix.lower() + "."`. -/
theorem flattenAux_key_prefix (els : List Xml) (pre : String) (acc : Rec) :
    ∀ k, (lookupKey (flattenAux els pre acc) k).isSome →
      (lookupKey acc k).isSome ∨ ∃ r, k = strLower pre ++ "." ++ r := by
  refine flattenAux.induct
    (fun el pre acc => ∀ k, (lookupKey (flattenStep el pre acc) k).isSome →
      (lookupKey acc k).isSome ∨ ∃ r, k = strLower pre ++ "." ++ r)
    (fun els pre acc => ∀ k, (lookupKey (flattenAux els pre acc) k).isSome →
      (lookupKey acc k).isSome ∨ ∃ r, k = strLower pre ++ "." ++ r)
    ?_ ?_ ?_ ?_ els pre acc
  · intro tag tx pre ret k h
    simp only [flattenStep] at h
    rw [lookupKey_setKey] at h
    by_cases hk : k = leafKey pre tag
    · exact Or.inr ⟨strLower tag, by rw [hk, leafKey_eq]⟩
    · exact Or.inl (by simpa [hk] using h)
  · intro tag text c cs pre ret ihInner k h
    simp only [flattenStep] at h
    rw [lookupKey_updateNoOverwrite] at h
    cases hacc : lookupKey ret k with
    | some v => exact Or.inl (by simp [hacc])
    | none =>
        rw [hacc] at h
        rcases ihInner k h with h' | ⟨r, hr⟩
        · simp [lookupKey] at h'
        · refine Or.inr ⟨strLower tag ++ "." ++ r, ?_⟩
          rw [hr, strLower_append, strLower_append]
          have hdot : strLower "." = "." := by decide
          simp [hdot, String.append_assoc]
  · intro pre ret k h
    simp only [flattenAux] at h
    exact Or.inl h
  · intro el rest pre ret ih1 ih2 k h
    simp only [flattenAux] at h
    rcases ih2 k h with h' | h'
    · exact ih1 k h'
    · exact Or.inr h'

theorem flatten_key_prefix (els : List Xml) (pre : String) (k : String)
    (h : (lookupKey (flatten els pre) k).isSome) :
    ∃ r, k = strLower pre ++ "." ++ r := by
  rcases flattenAux_key_prefix els pre [] k h with h' | h'
  · simp [lookupKey] at h'
  · exact h'

/-! ### Records have unique keys (Python dict invariant) -/

theorem lookupKey_eq_none_iff (m : Rec) (k : String) :
    lookupKey m k = none ↔ k ∉ keysOf m := by
  induction m with
  | nil => simp [lookupKey, keysOf]
  | cons p t ih =>
      obtain ⟨pk, pv⟩ := p
      by_cases h : k = pk <;> simp [lookupKey, keysOf, h, ih]

theorem keysOf_cons (p : String × Option String) (t : Rec) :
    keysOf (p :: t) = p.1 :: keysOf t := rfl

theorem setKey_of_not_mem (m : Rec) (k : String) (v : Option String)
    (h : k ∉ keysOf m) : setKey m k v = m ++ [(k, v)] := by
  induction m with
  | nil => simp [setKey]
  | cons p t ih =>
      obtain ⟨pk, pv⟩ := p
      rw [keysOf_cons, List.mem_cons] at h
      push_neg at h
      have hk : ¬ pk = k := fun hc => h.1 hc.symm
      simp only [setKey, if_neg hk]
      rw [ih h.2]
      simp

theorem mem_keysOf_setKey (m : Rec) (k : String) (v : Option String) (x : String)
    (h : x ∈ keysOf (setKey m k v)) : x = k ∨ x ∈ keysOf m := by
  induction m with
  | nil =>
      rw [show setKey [] k v = [(k, v)] from rfl, keysOf_cons] at h
      simp [keysOf] at h
      exact Or.inl h
  | cons p t ih =>
      obtain ⟨pk, pv⟩ := p
      by_cases hk : pk = k
      · subst hk
        rw [show setKey ((pk, pv) :: t) pk v = (pk, v) :: t from by simp [setKey],
          keysOf_cons] at h
        rcases List.mem_cons.1 h with h' | h'
        · exact Or.inl h'
        · exact Or.inr (by rw [keysOf_cons]; exact List.mem_cons_of_mem _ h')
      · rw [show setKey ((pk, pv) :: t) k v = (pk, pv) :: setKey t k v from by
          simp [setKey, hk], keysOf_cons] at h
        rcases List.mem_cons.1 h with h' | h'
        · exact Or.inr (by rw [keysOf_cons]; exact List.mem_cons.2 (Or.inl h'))
        · rcases ih h' with h'' | h''
          · exact Or.inl h''
          · exact Or.inr (by rw [keysOf_cons]; exact List.mem_cons_of_mem _ h'')

theorem nodupKeys_setKey (m : Rec) (k : String) (v : Option String)
    (h : NodupKeys m) : NodupKeys (setKey m k v) := by
  induction m with
  | nil => simp [setKey, NodupKeys, keysOf]
  | cons p t ih =>
      obtain ⟨pk, pv⟩ := p
      rw [NodupKeys, keysOf_cons, List.nodup_cons] at h
      by_cases hk : pk = k
      · subst hk
        rw [show setKey ((pk, pv) :: t) pk v = (pk, v) :: t from by simp [setKey],
          NodupKeys, keysOf_cons, List.nodup_cons]
        exact h
      · rw [show setKey ((pk, pv) :: t) k v = (pk, pv) :: setKey t k v from by
          simp [setKey, hk], NodupKeys, keysOf_cons, List.nodup_cons]
        refine ⟨fun hc => ?_, ih h.2⟩
        rcases mem_keysOf_setKey t k v pk hc with h' | h'
        · exact hk h'
        · exact h.1 h'

theorem keysOf_append (a b : Rec) : keysOf (a ++ b) = keysOf a ++ keysOf b := by
  simp [keysOf]

theorem nodupKeys_updateNoOverwrite (acc add : Rec)
    (h1 : NodupKeys acc) (h2 : NodupKeys add) :
    NodupKeys (updateNoOverwrite acc add) := by
  rw [NodupKeys, updateNoOverwrite, keysOf_append]
  refine List.Nodup.append h1 ?_ ?_
  · exact h2.sublist ((add.filter_sublist).map Prod.fst)
  · intro x hx hxf
    rcases List.mem_map.1 hxf with ⟨p, hp, hpx⟩
    have hlk := (List.mem_filter.1 hp).2
    have : lookupKey acc p.1 = none := by simpa using hlk
    exact (lookupKey_eq_none_iff acc p.1).1 this (hpx ▸ hx)

theorem flattenAux_nodupKeys (els : List Xml) (pre : String) (acc : Rec) :
    NodupKeys acc → NodupKeys (flattenAux els pre acc) := by
  refine flattenAux.induct
    (fun el pre acc => NodupKeys acc → NodupKeys (flattenStep el pre acc))
    (fun els pre acc => NodupKeys acc → NodupKeys (flattenAux els pre acc))
    ?_ ?_ ?_ ?_ els pre acc
  · intro tag tx pre ret h
    simp only [flattenStep]
    exact nodupKeys_setKey _ _ _ h
  · intro tag text c cs pre ret ihInner h
    simp only [flattenStep]
    exact nodupKeys_updateNoOverwrite _ _ h (ihInner (by simp [NodupKeys, keysOf]))
  · intro pre ret h
    simpa only [flattenAux] using h
  · intro el rest pre ret ih1 ih2 h
    simp only [flattenAux]
    exact ih2 (ih1 h)

theorem flatten_nodupKeys (els : List Xml) (pre : String) :
    NodupKeys (flatten els pre) :=
  flattenAux_nodupKeys els pre [] (by simp [NodupKeys, keysOf])

/-! ### Python `dict.update` (last-writer-wins) -/

theorem pyUpdate_append_single (m l : Rec) (p : String × Option String) :
    pyUpdate m (l ++ [p]) = setKey (pyUpdate m l) p.1 p.2 := by
  simp [pyUpdate, List.foldl_append]

theorem lookupKey_pyUpdate_split (m add : Rec) (k : String) :
    lookupKey (pyUpdate m add) k =
      match lookupKey (pyUpdate [] add) k with
      | some v => some v
      | none => lookupKey m k := by
  induction add using List.reverseRecOn with
  | nil => simp [pyUpdate, lookupKey]
  | append_singleton l p ih =>
      rw [pyUpdate_append_single, pyUpdate_append_single,
        lookupKey_setKey, lookupKey_setKey]
      by_cases h : k = p.1 <;> simp [h, ih]

theorem pyUpdate_of_keys_disjoint (l : Rec) :
    ∀ m : Rec, (∀ p ∈ l, p.1 ∉ keysOf m) → NodupKeys l → pyUpdate m l = m ++ l := by
  induction l with
  | nil => intro m _ _; simp [pyUpdate]
  | cons p t ih =>
      intro m hd hn
      rw [NodupKeys, keysOf] at hn
      simp only [List.map_cons, List.nodup_cons] at hn
      have step : pyUpdate m (p :: t) = pyUpdate (setKey m p.1 p.2) t := rfl
      rw [step, setKey_of_not_mem m p.1 p.2 (hd p (by simp))]
      rw [ih (m ++ [(p.1, p.2)]) ?_ hn.2]
      · simp
      · intro q hq hc
        rw [keysOf_append] at hc
        rcases List.mem_append.1 hc with h' | h'
        · exact hd q (by simp [hq]) h'
        · have : q.1 = p.1 := by simpa [keysOf] using h'
          exact hn.1 (this ▸ (by simpa [keysOf] using List.mem_map_of_mem Prod.fst hq))

theorem pyUpdate_nil_of_nodup (l : Rec) (hn : NodupKeys l) : pyUpdate [] l = l := by
  simpa using pyUpdate_of_keys_disjoint l [] (by simp [keysOf]) hn

theorem lookupKey_pyUpdate_of_nodup (m add : Rec) (k : String) (hn : NodupKeys add) :
    lookupKey (pyUpdate m add) k =
      match lookupKey add k with
      | some v => some v
      | none => lookupKey m k := by
  rw [lookupKey_pyUpdate_split, pyUpdate_nil_of_nodup add hn]

theorem lookupKey_foldl_pyUpdate_split (ds : List Rec) :
    ∀ (a : Rec) (k : String),
      lookupKey (ds.foldl pyUpdate a) k =
        match lookupKey (ds.foldl pyUpdate []) k with
        | some v => some v
        | none => lookupKey a k := by
  induction ds with
  | nil => intro a k; simp [lookupKey]
  | cons d t ih =>
      intro a k
      have l1 : (d :: t).foldl pyUpdate a = t.foldl pyUpdate (pyUpdate a d) := rfl
      have l2 : (d :: t).foldl pyUpdate [] = t.foldl pyUpdate (pyUpdate [] d) := rfl
      rw [l1, l2, ih (pyUpdate a d) k, ih (pyUpdate [] d) k,
        lookupKey_pyUpdate_split a d k]
      cases lookupKey (t.foldl pyUpdate []) k <;>
        cases lookupKey (pyUpdate [] d) k <;> simp

theorem nodupKeys_pyUpdate (m add : Rec) (h : NodupKeys m) :
    NodupKeys (pyUpdate m add) := by
  induction add using List.reverseRecOn with
  | nil => exact h
  | append_singleton l p ih =>
      rw [pyUpdate_append_single]
      exact nodupKeys_setKey _ _ _ ih

/-! ### String prefix discrimination -/

theorem data_append (a b : String) : (a ++ b).data = a.data ++ b.data := by
  cases a
  cases b
  rfl

theorem ne_append_of_head (s p r : String) (c1 c2 : Char)
    (h1 : s.data.head? = some c1) (h2 : p.data.head? = some c2) (hne : c1 ≠ c2) :
    s ≠ p ++ r := by
  intro h
  rw [h, data_append] at h1
  cases d2 : p.data with
  | nil => rw [d2] at h2; simp at h2
  | cons b t =>
      rw [d2] at h1 h2
      simp at h1 h2
      exact hne (h1.symm.trans h2)

theorem append_ne_append_head (p1 p2 r1 r2 : String) (c1 c2 : Char)
    (h1 : p1.data.head? = some c1) (h2 : p2.data.head? = some c2) (hne : c1 ≠ c2) :
    p1 ++ r1 ≠ p2 ++ r2 := by
  apply ne_append_of_head _ _ _ c1 c2 _ h2 hne
  rw [data_append]
  cases d1 : p1.data with
  | nil => rw [d1] at h1; simp at h1
  | cons a t => rw [d1] at h1; simpa using h1

theorem append_ne_append_two (p1 p2 r1 r2 : String) (c c1 c2 : Char)
    (t1 t2 : List Char) (h1 : p1.data = c :: c1 :: t1) (h2 : p2.data = c :: c2 :: t2)
    (hne : c1 ≠ c2) : p1 ++ r1 ≠ p2 ++ r2 := by
  intro h
  have hd := congrArg String.data h
  rw [data_append, data_append, h1, h2] at hd
  simp at hd
  exact hne hd.1

theorem pfx_description : strLower "description" ++ "." = "description." := by decide
theorem pfx_hardware : strLower "hardware" ++ "." = "hardware." := by decide
theorem pfx_software : strLower "software" ++ "." = "software." := by decide
theorem pfx_user_data : strLower "user_data" ++ "." = "user_data." := by decide
theorem pfx_erasure : strLower "erasure" ++ "." = "erasure." := by decide
theorem pfx_disk : strLower "disk" ++ "." = "disk." := by decide

/-- Specialized form of `flatten_key_prefix` for a literal prefix. -/
theorem flatten_key_prefix_lit (els : List Xml) (pre lit k : String)
    (hlit : strLower pre ++ "." = lit)
    (h : (lookupKey (flatten els pre) k).isSome) : ∃ r, k = lit ++ r := by
  rcases flatten_key_prefix els pre k h with ⟨r, hr⟩
  exact ⟨r, by rw [hr, ← hlit]⟩

/-! ### Report assembly (`parse_report`) -/

/-- `xpath` step `child::t`: the children of `x` whose tag is `t`. -/
def childrenTagged (t : String) (x : Xml) : List Xml :=
  x.children.filter (fun c => c.tag = t)

def selChildren (t : String) (xs : List Xml) : List Xml :=
  (xs.map (childrenTagged t)).flatten

/-- `xpath` step `*`: all children, in document order. -/
def childNodes (xs : List Xml) : List Xml := (xs.map Xml.children).flatten

/-- `./blancco_data/description/*` -/
def descriptionNodes (x : Xml) : List Xml :=
  childNodes (selChildren "description" (childrenTagged "blancco_data" x))

def hardwareReports (x : Xml) : List Xml :=
  selChildren "blancco_hardware_report" (childrenTagged "blancco_data" x)

/-- `./blancco_data/blancco_hardware_report/*[not(name()="disks")]` -/
def hardwareNodes (x : Xml) : List Xml :=
  ((hardwareReports x).map
    (fun h => h.children.filter (fun c => ¬ c.tag = "disks"))).flatten

/-- `./blancco_data/blancco_software_report/*` -/
def softwareNodes (x : Xml) : List Xml :=
  childNodes (selChildren "blancco_software_report" (childrenTagged "blancco_data" x))

/-- `./user_data/*` -/
def userDataNodes (x : Xml) : List Xml := childNodes (childrenTagged "user_data" x)

/-- `./blancco_data/blancco_erasure_report/erasures/*` -/
def erasureNodes (x : Xml) : List Xml :=
  childNodes (selChildren "erasures"
    (selChildren "blancco_erasure_report" (childrenTagged "blancco_data" x)))

/-- `./blancco_data/blancco_hardware_report/*[name()="disks"]/*` -/
def diskNodes (x : Xml) : List Xml :=
  childNodes (((hardwareReports x).map
    (fun h => h.children.filter (fun c => c.tag = "disks"))).flatten)

def descRec (x : Xml) : Rec := flatten (descriptionNodes x) "description"
def hardRec (x : Xml) : Rec := flatten (hardwareNodes x) "hardware"
def softRec (x : Xml) : Rec := flatten (softwareNodes x) "software"
def userRec (x : Xml) : Rec := flatten (userDataNodes x) "user_data"

/-- `erasures = [flatten(erasure, 'erasure') for erasure in ...]` -/
def eraseRecs (x : Xml) : List Rec :=
  (erasureNodes x).map (fun e => flatten e.children "erasure")

/-- `disks = [flatten(disks, 'disk') for disks in ...]` -/
def diskRecs (x : Xml) : List Rec :=
  (diskNodes x).map (fun d => flatten d.children "disk")

/-- One step of `[e.update(disk) for disk in disks if 'erasure.target.type'
in e and disk['disk.type'] == e['erasure.target.type']]`.  Python first
checks membership of `'erasure.target.type'` in the evolving `e` (the
`and` short-circuits), then evaluates `disk['disk.type']` — which raises
`KeyError` when the disk record lacks `disk.type` — and merges the disk
when the values are equal. -/
def diskStep (acc d : Rec) : Except String Rec :=
  if (lookupKey acc "erasure.target.type").isSome then
    match lookupKey d "disk.type" with
    | none => Except.error "KeyError: disk.type"
    | some dv =>
        if some dv = lookupKey acc "erasure.target.type"
        then Except.ok (pyUpdate acc d) else Except.ok acc
  else Except.ok acc

/-- The disk-join block of `parse_report`: `if len(disks) > 1: <list
comprehension over disks> elif len(disks) == 1: e.update(disks[0])`.
The comprehension stops at the first raised `KeyError`. -/
def diskJoin (disks : List Rec) (e : Rec) : Except String Rec :=
  if 1 < disks.length then disks.foldlM diskStep e
  else if disks.length = 1 then Except.ok (pyUpdate e (disks.headD []))
  else Except.ok e

/-- The per-erasure body of the loop in `parse_report`:
`e.update(description); e.update(hardware); <disk join>; e.update(software);
e.update(user_data)`; a `KeyError` in the join propagates. -/
def assembleOne (description hardware software user_data : Rec)
    (disks : List Rec) (e : Rec) : Except String Rec :=
  match diskJoin disks (pyUpdate (pyUpdate e description) hardware) with
  | Except.error msg => Except.error msg
  | Except.ok e3 => Except.ok (pyUpdate (pyUpdate e3 software) user_data)

/-- `parse_report`: one output record per erasure, in order; an exception
raised while assembling any erasure aborts the whole call (the partially
mutated list is never returned). -/
def parse_report (x : Xml) : Except String (List Rec) :=
  (eraseRecs x).mapM
    (assembleOne (descRec x) (hardRec x) (softRec x) (userRec x) (diskRecs x))

/-- Success-path form of `diskStep`, used to state what the join computes
whenever it does not raise: merge the disk exactly when the erasure record
carries a target type equal to the disk's `disk.type`. -/
def diskStepT (acc d : Rec) : Rec :=
  if (lookupKey acc "erasure.target.type").isSome ∧
      lookupKey d "disk.type" = lookupKey acc "erasure.target.type"
  then pyUpdate acc d else acc

/-- Success-path form of the disk-join block (equal to `diskJoin` whenever
the latter does not raise — `diskJoin_ok_elim` below). -/
def diskJoinT (disks : List Rec) (e : Rec) : Rec :=
  if 1 < disks.length then disks.foldl diskStepT e
  else if disks.length = 1 then pyUpdate e (disks.headD [])
  else e

/-- Success-path form of `assembleOne`. -/
def assembleOneT (description hardware software user_data : Rec)
    (disks : List Rec) (e : Rec) : Rec :=
  pyUpdate
    (pyUpdate (diskJoinT disks (pyUpdate (pyUpdate e description) hardware))
      software)
    user_data

/-- The net record of disk fields contributed by the join: with several
disks, the left fold of all type-matching disks; with exactly one disk, that
disk; with none, nothing. -/
def diskContribution (disks : List Rec) (e : Rec) : Rec :=
  if 1 < disks.length then
    match lookupKey e "erasure.target.type" with
    | none => []
    | some tv =>
        (disks.filter (fun d => decide (lookupKey d "disk.type" = some tv))).foldl
          pyUpdate []
  else if disks.length = 1 then disks.headD []
  else []

theorem lookupKey_pyUpdate_isSome (m add : Rec) (k : String)
    (h : (lookupKey (pyUpdate m add) k).isSome) :
    (lookupKey m k).isSome ∨ (lookupKey add k).isSome := by
  induction add using List.reverseRecOn with
  | nil => exact Or.inl h
  | append_singleton l p ih =>
      rw [pyUpdate_append_single, lookupKey_setKey] at h
      by_cases hk : k = p.1
      · refine Or.inr ?_
        rw [lookupKey_append]
        cases hl : lookupKey l k <;> simp [lookupKey, hk, hl]
      · rw [if_neg hk] at h
        rcases ih h with h' | h'
        · exact Or.inl h'
        · refine Or.inr ?_
          rw [lookupKey_append]
          cases hl : lookupKey l k with
          | some v => simp
          | none => rw [hl] at h'; simp at h'

theorem lookupKey_foldl_pyUpdate_isSome (ds : List Rec) :
    ∀ (a : Rec) (k : String),
      (lookupKey (ds.foldl pyUpdate a) k).isSome →
      (lookupKey a k).isSome ∨ ∃ d ∈ ds, (lookupKey d k).isSome := by
  induction ds with
  | nil => exact fun a k h => Or.inl h
  | cons d t ih =>
      intro a k h
      rcases ih (pyUpdate a d) k h with h' | ⟨d', hd', h''⟩
      · rcases lookupKey_pyUpdate_isSome a d k h' with h'' | h''
        · exact Or.inl h''
        · exact Or.inr ⟨d, by simp, h''⟩
      · exact Or.inr ⟨d', by simp [hd'], h''⟩

/-- Keys of disk records never collide with `erasure.target.type`. -/
theorem target_type_not_disk_key (r : String) :
    "erasure.target.type" ≠ "disk." ++ r :=
  ne_append_of_head _ _ _ 'e' 'd' rfl rfl (by decide)

/-- Updating with a disk-prefixed record leaves the target type unchanged. -/
theorem lookupKey_pyUpdate_target (acc d : Rec)
    (hd : ∀ k', (lookupKey d k').isSome → ∃ r, k' = "disk." ++ r) :
    lookupKey (pyUpdate acc d) "erasure.target.type"
      = lookupKey acc "erasure.target.type" := by
  rw [lookupKey_pyUpdate_split]
  cases h : lookupKey (pyUpdate [] d) "erasure.target.type" with
  | none => simp
  | some v =>
      exfalso
      rcases lookupKey_pyUpdate_isSome [] d "erasure.target.type" (by rw [h]; rfl)
        with h' | h'
      · simp [lookupKey] at h'
      · rcases hd _ h' with ⟨r, hr⟩
        exact target_type_not_disk_key r hr

/-- With a fixed target type, the conditional fold over all disks equals the
unconditional fold over the type-matching disks. -/
theorem diskFold_eq_filter (tv : Option String) :
    ∀ (ds : List Rec) (acc : Rec),
      (∀ d ∈ ds, ∀ k', (lookupKey d k').isSome → ∃ r, k' = "disk." ++ r) →
      lookupKey acc "erasure.target.type" = some tv →
      ds.foldl diskStepT acc =
        (ds.filter (fun d => decide (lookupKey d "disk.type" = some tv))).foldl
          pyUpdate acc := by
  intro ds
  induction ds with
  | nil => intro acc _ _; rfl
  | cons d t ih =>
      intro acc hd hacc
      by_cases hc : lookupKey d "disk.type" = some tv
      · have hstep : diskStepT acc d = pyUpdate acc d := by
          rw [diskStepT, if_pos ⟨by simp [hacc], by rw [hacc, hc]⟩]
        have hacc' : lookupKey (pyUpdate acc d) "erasure.target.type" = some tv := by
          rw [lookupKey_pyUpdate_target acc d (hd d (by simp)), hacc]
        have hfil : (d :: t).filter (fun d => decide (lookupKey d "disk.type" = some tv))
            = d :: t.filter (fun d => decide (lookupKey d "disk.type" = some tv)) := by
          simp [List.filter_cons, hc]
        rw [List.foldl_cons, hstep, hfil, List.foldl_cons]
        exact ih (pyUpdate acc d) (fun d' hd' => hd d' (by simp [hd'])) hacc'
      · have hstep : diskStepT acc d = acc := by
          rw [diskStepT, if_neg]
          intro hcontra
          exact hc (by rw [hcontra.2, hacc])
        have hfil : (d :: t).filter (fun d => decide (lookupKey d "disk.type" = some tv))
            = t.filter (fun d => decide (lookupKey d "disk.type" = some tv)) := by
          simp [List.filter_cons, hc]
        rw [List.foldl_cons, hstep, hfil]
        exact ih acc (fun d' hd' => hd d' (by simp [hd'])) hacc

/-- With no target type on the erasure record, no disk is ever merged. -/
theorem diskFold_no_target :
    ∀ (ds : List Rec) (acc : Rec),
      (∀ d ∈ ds, ∀ k', (lookupKey d k').isSome → ∃ r, k' = "disk." ++ r) →
      lookupKey acc "erasure.target.type" = none →
      ds.foldl diskStepT acc = acc := by
  intro ds
  induction ds with
  | nil => intro acc _ _; rfl
  | cons d t ih =>
      intro acc hd hacc
      have hstep : diskStepT acc d = acc := by
        rw [diskStepT, if_neg]
        intro hcontra
        rw [hacc] at hcontra
        simp at hcontra
      simp only [List.foldl_cons, hstep]
      exact ih acc (fun d' hd' => hd d' (by simp [hd'])) hacc

/-- The disk-join block, expressed through the net disk contribution. -/
theorem lookupKey_diskJoin (disks : List Rec) (e : Rec) (k : String)
    (hpre : ∀ d ∈ disks, ∀ k', (lookupKey d k').isSome → ∃ r, k' = "disk." ++ r)
    (hnd : ∀ d ∈ disks, NodupKeys d) :
    lookupKey (diskJoinT disks e) k =
      match lookupKey (diskContribution disks e) k with
      | some v => some v
      | none => lookupKey e k := by
  rw [diskJoinT, diskContribution]
  by_cases hlen : 1 < disks.length
  · rw [if_pos hlen, if_pos hlen]
    cases htv : lookupKey e "erasure.target.type" with
    | none =>
        rw [diskFold_no_target disks e hpre htv]
        simp [lookupKey]
    | some tv =>
        rw [diskFold_eq_filter tv disks e hpre htv,
          lookupKey_foldl_pyUpdate_split]
  · rw [if_neg hlen, if_neg hlen]
    by_cases h1 : disks.length = 1
    · rw [if_pos h1, if_pos h1]
      rcases List.length_eq_one.1 h1 with ⟨d, hd⟩
      subst hd
      simp only [List.headD_cons]
      rw [lookupKey_pyUpdate_of_nodup e d k (hnd d (by simp))]
    · rw [if_neg h1, if_neg h1]
      simp [lookupKey]

/-- Keys of the net disk contribution are disk-prefixed. -/
theorem diskContribution_key_prefix (disks : List Rec) (e : Rec) (k : String)
    (hpre : ∀ d ∈ disks, ∀ k', (lookupKey d k').isSome → ∃ r, k' = "disk." ++ r)
    (h : (lookupKey (diskContribution disks e) k).isSome) :
    ∃ r, k = "disk." ++ r := by
  rw [diskContribution] at h
  by_cases hlen : 1 < disks.length
  · rw [if_pos hlen] at h
    cases htv : lookupKey e "erasure.target.type" with
    | none => rw [htv] at h; simp [lookupKey] at h
    | some tv =>
        rw [htv] at h
        rcases lookupKey_foldl_pyUpdate_isSome _ _ _ h with h' | ⟨d, hd, h'⟩
        · simp [lookupKey] at h'
        · exact hpre d (List.mem_of_mem_filter hd) _ h'
  · rw [if_neg hlen] at h
    by_cases h1 : disks.length = 1
    · rw [if_pos h1] at h
      rcases List.length_eq_one.1 h1 with ⟨d, hd⟩
      subst hd
      exact hpre d (by simp) _ (by simpa using h)
    · rw [if_neg h1] at h
      simp [lookupKey] at h

/-! ### `firstSome` ordering lemmas -/

theorem firstSome_append (a b : List (Option (Option String))) :
    firstSome (a ++ b) =
      match firstSome a with
      | some v => some v
      | none => firstSome b := by
  induction a with
  | nil => simp [firstSome]
  | cons o t ih => cases o <;> simp [firstSome, ih]

theorem firstSome_eq_none (l : List (Option (Option String)))
    (h : ∀ o ∈ l, o = none) : firstSome l = none := by
  induction l with
  | nil => rfl
  | cons o t ih =>
      rw [h o (by simp)] at *
      simp only [firstSome]
      exact ih (fun o' ho' => h o' (by simp [ho']))

/-- When at most one entry is defined, the scan order does not matter. -/
theorem firstSome_reverse (l : List (Option (Option String)))
    (h : List.Pairwise (fun a b => a = none ∨ b = none) l) :
    firstSome l.reverse = firstSome l := by
  induction l with
  | nil => rfl
  | cons o t ih =>
      rw [List.pairwise_cons] at h
      rw [List.reverse_cons, firstSome_append, ih h.2]
      cases o with
      | none => cases ht : firstSome t <;> simp [firstSome, ht]
      | some v =>
          have hnone : firstSome t = none :=
            firstSome_eq_none t (fun b hb => (h.1 b hb).resolve_left (by simp))
          rw [hnone]
          simp [firstSome]

/-! ### Key prefixes and uniqueness for the six assembly sources -/

theorem descRec_keys (x : Xml) (k : String)
    (h : (lookupKey (descRec x) k).isSome) : ∃ r, k = "description." ++ r :=
  flatten_key_prefix_lit _ _ _ k pfx_description h

theorem hardRec_keys (x : Xml) (k : String)
    (h : (lookupKey (hardRec x) k).isSome) : ∃ r, k = "hardware." ++ r :=
  flatten_key_prefix_lit _ _ _ k pfx_hardware h

theorem softRec_keys (x : Xml) (k : String)
    (h : (lookupKey (softRec x) k).isSome) : ∃ r, k = "software." ++ r :=
  flatten_key_prefix_lit _ _ _ k pfx_software h

theorem userRec_keys (x : Xml) (k : String)
    (h : (lookupKey (userRec x) k).isSome) : ∃ r, k = "user_data." ++ r :=
  flatten_key_prefix_lit _ _ _ k pfx_user_data h

theorem eraseRecs_keys (x : Xml) (e : Rec) (he : e ∈ eraseRecs x) (k : String)
    (h : (lookupKey e k).isSome) : ∃ r, k = "erasure." ++ r := by
  rcases List.mem_map.1 he with ⟨n, _, rfl⟩
  exact flatten_key_prefix_lit _ _ _ k pfx_erasure h

theorem diskRecs_keys (x : Xml) (d : Rec) (hd : d ∈ diskRecs x) (k : String)
    (h : (lookupKey d k).isSome) : ∃ r, k = "disk." ++ r := by
  rcases List.mem_map.1 hd with ⟨n, _, rfl⟩
  exact flatten_key_prefix_lit _ _ _ k pfx_disk h

theorem diskRecs_nodup (x : Xml) (d : Rec) (hd : d ∈ diskRecs x) : NodupKeys d := by
  rcases List.mem_map.1 hd with ⟨n, _, rfl⟩
  exact flatten_nodupKeys _ _

/-- Two key-disjoint records never both bind the same key. -/
theorem sources_disjoint (m1 m2 : Rec) (P1 P2 : String) (k : String)
    (h1 : ∀ k', (lookupKey m1 k').isSome → ∃ r, k' = P1 ++ r)
    (h2 : ∀ k', (lookupKey m2 k').isSome → ∃ r, k' = P2 ++ r)
    (hne : ∀ r1 r2, P1 ++ r1 ≠ P2 ++ r2) :
    lookupKey m1 k = none ∨ lookupKey m2 k = none := by
  by_cases hs : (lookupKey m1 k).isSome
  · cases hm : lookupKey m2 k with
    | none => exact Or.inr rfl
    | some v =>
        rcases h1 k hs with ⟨r1, hr1⟩
        rcases h2 k (by simp [hm]) with ⟨r2, hr2⟩
        exact absurd (hr1 ▸ hr2) (hne r1 r2)
  · exact Or.inl (Option.not_isSome_iff_eq_none.1 hs)

/-- The disk contribution only consults the erasure target type. -/
theorem diskContribution_congr (disks : List Rec) (e1 e2 : Rec)
    (h : lookupKey e1 "erasure.target.type" = lookupKey e2 "erasure.target.type") :
    diskContribution disks e1 = diskContribution disks e2 := by
  rw [diskContribution, diskContribution, h]

/-- Updating with a record whose keys all miss `k` does not change `k`. -/
theorem lookupKey_pyUpdate_miss (a b : Rec) (k : String) (hn : NodupKeys b)
    (hb : lookupKey b k = none) : lookupKey (pyUpdate a b) k = lookupKey a k := by
  rw [lookupKey_pyUpdate_of_nodup a b k hn, hb]

/-- The success-path assembled record realizes the first-seen-wins overlay
of its six key-disjoint sources in the fixed order of `parse_report`. -/
theorem lookupKey_assembled_firstSome (x : Xml) (e : Rec)
    (he : e ∈ eraseRecs x) (k : String) :
    lookupKey
        (assembleOneT (descRec x) (hardRec x) (softRec x) (userRec x) (diskRecs x) e) k =
      firstSome
        [lookupKey e k, lookupKey (descRec x) k, lookupKey (hardRec x) k,
          lookupKey (diskContribution (diskRecs x) e) k,
          lookupKey (softRec x) k, lookupKey (userRec x) k] := by
  have hD : NodupKeys (descRec x) := flatten_nodupKeys _ _
  have hH : NodupKeys (hardRec x) := flatten_nodupKeys _ _
  have hS : NodupKeys (softRec x) := flatten_nodupKeys _ _
  have hU : NodupKeys (userRec x) := flatten_nodupKeys _ _
  have hdiskPre := fun d hd => diskRecs_keys x d hd
  have hdiskNd := fun d hd => diskRecs_nodup x d hd
  -- description/hardware updates cannot touch the erasure target type
  have httD : lookupKey (descRec x) "erasure.target.type" = none := by
    cases hm : lookupKey (descRec x) "erasure.target.type" with
    | none => rfl
    | some v =>
        rcases descRec_keys x "erasure.target.type" (by rw [hm]; rfl) with ⟨r, hr⟩
        exact absurd hr (ne_append_of_head "erasure.target.type" "description." r
          'e' 'd' rfl rfl (by decide))
  have httH : lookupKey (hardRec x) "erasure.target.type" = none := by
    cases hm : lookupKey (hardRec x) "erasure.target.type" with
    | none => rfl
    | some v =>
        rcases hardRec_keys x "erasure.target.type" (by rw [hm]; rfl) with ⟨r, hr⟩
        exact absurd hr (ne_append_of_head "erasure.target.type" "hardware." r
          'e' 'h' rfl rfl (by decide))
  have htt : lookupKey (pyUpdate (pyUpdate e (descRec x)) (hardRec x))
      "erasure.target.type" = lookupKey e "erasure.target.type" := by
    rw [lookupKey_pyUpdate_miss _ _ _ hH httH, lookupKey_pyUpdate_miss _ _ _ hD httD]
  -- the reversed (last-writer-wins) chain of lookups
  have hchain :
      lookupKey
          (assembleOneT (descRec x) (hardRec x) (softRec x) (userRec x) (diskRecs x) e) k =
        firstSome
          [lookupKey (userRec x) k, lookupKey (softRec x) k,
            lookupKey (diskContribution (diskRecs x) e) k,
            lookupKey (hardRec x) k, lookupKey (descRec x) k, lookupKey e k] := by
    rw [assembleOneT, lookupKey_pyUpdate_of_nodup _ _ _ hU]
    cases lookupKey (userRec x) k with
    | some v => simp [firstSome]
    | none =>
        simp only [firstSome]
        rw [lookupKey_pyUpdate_of_nodup _ _ _ hS]
        cases lookupKey (softRec x) k with
        | some v => simp [firstSome]
        | none =>
            simp only [firstSome]
            rw [lookupKey_diskJoin _ _ _ hdiskPre hdiskNd,
              diskContribution_congr (diskRecs x) _ e htt]
            cases lookupKey (diskContribution (diskRecs x) e) k with
            | some v => simp [firstSome]
            | none =>
                simp only [firstSome]
                rw [lookupKey_pyUpdate_of_nodup _ _ _ hH]
                cases lookupKey (hardRec x) k with
                | some v => simp [firstSome]
                | none =>
                    simp only [firstSome]
                    rw [lookupKey_pyUpdate_of_nodup _ _ _ hD]
                    cases lookupKey (descRec x) k <;>
                      cases lookupKey e k <;> simp [firstSome]
  rw [hchain]
  -- at most one source binds any key, so scan order is irrelevant
  have hdc := fun k' h' =>
    diskContribution_key_prefix (diskRecs x) e k' hdiskPre h'
  have d12 := sources_disjoint e (descRec x) "erasure." "description." k
    (eraseRecs_keys x e he) (descRec_keys x)
    (fun r1 r2 => append_ne_append_head _ _ r1 r2 'e' 'd' rfl rfl (by decide))
  have d13 := sources_disjoint e (hardRec x) "erasure." "hardware." k
    (eraseRecs_keys x e he) (hardRec_keys x)
    (fun r1 r2 => append_ne_append_head _ _ r1 r2 'e' 'h' rfl rfl (by decide))
  have d14 := sources_disjoint e (diskContribution (diskRecs x) e) "erasure." "disk." k
    (eraseRecs_keys x e he) hdc
    (fun r1 r2 => append_ne_append_head _ _ r1 r2 'e' 'd' rfl rfl (by decide))
  have d15 := sources_disjoint e (softRec x) "erasure." "software." k
    (eraseRecs_keys x e he) (softRec_keys x)
    (fun r1 r2 => append_ne_append_head _ _ r1 r2 'e' 's' rfl rfl (by decide))
  have d16 := sources_disjoint e (userRec x) "erasure." "user_data." k
    (eraseRecs_keys x e he) (userRec_keys x)
    (fun r1 r2 => append_ne_append_head _ _ r1 r2 'e' 'u' rfl rfl (by decide))
  have d23 := sources_disjoint (descRec x) (hardRec x) "description." "hardware." k
    (descRec_keys x) (hardRec_keys x)
    (fun r1 r2 => append_ne_append_head _ _ r1 r2 'd' 'h' rfl rfl (by decide))
  have d24 := sources_disjoint (descRec x) (diskContribution (diskRecs x) e)
    "description." "disk." k (descRec_keys x) hdc
    (fun r1 r2 => append_ne_append_two _ _ r1 r2 'd' 'e' 'i'
      ("scription.").data ("sk.").data rfl rfl (by decide))
  have d25 := sources_disjoint (descRec x) (softRec x) "description." "software." k
    (descRec_keys x) (softRec_keys x)
    (fun r1 r2 => append_ne_append_head _ _ r1 r2 'd' 's' rfl rfl (by decide))
  have d26 := sources_disjoint (descRec x) (userRec x) "description." "user_data." k
    (descRec_keys x) (userRec_keys x)
    (fun r1 r2 => append_ne_append_head _ _ r1 r2 'd' 'u' rfl rfl (by decide))
  have d34 := sources_disjoint (hardRec x) (diskContribution (diskRecs x) e)
    "hardware." "disk." k (hardRec_keys x) hdc
    (fun r1 r2 => append_ne_append_head _ _ r1 r2 'h' 'd' rfl rfl (by decide))
  have d35 := sources_disjoint (hardRec x) (softRec x) "hardware." "software." k
    (hardRec_keys x) (softRec_keys x)
    (fun r1 r2 => append_ne_append_head _ _ r1 r2 'h' 's' rfl rfl (by decide))
  have d36 := sources_disjoint (hardRec x) (userRec x) "hardware." "user_data." k
    (hardRec_keys x) (userRec_keys x)
    (fun r1 r2 => append_ne_append_head _ _ r1 r2 'h' 'u' rfl rfl (by decide))
  have d45 := sources_disjoint (diskContribution (diskRecs x) e) (softRec x)
    "disk." "software." k hdc (softRec_keys x)
    (fun r1 r2 => append_ne_append_head _ _ r1 r2 'd' 's' rfl rfl (by decide))
  have d46 := sources_disjoint (diskContribution (diskRecs x) e) (userRec x)
    "disk." "user_data." k hdc (userRec_keys x)
    (fun r1 r2 => append_ne_append_head _ _ r1 r2 'd' 'u' rfl rfl (by decide))
  have d56 := sources_disjoint (softRec x) (userRec x) "software." "user_data." k
    (softRec_keys x) (userRec_keys x)
    (fun r1 r2 => append_ne_append_head _ _ r1 r2 's' 'u' rfl rfl (by decide))
  have hpair : List.Pairwise (fun a b => a = none ∨ b = none)
      [lookupKey e k, lookupKey (descRec x) k, lookupKey (hardRec x) k,
        lookupKey (diskContribution (diskRecs x) e) k,
        lookupKey (softRec x) k, lookupKey (userRec x) k] := by
    refine List.Pairwise.cons ?_ (List.Pairwise.cons ?_ (List.Pairwise.cons ?_
      (List.Pairwise.cons ?_ (List.Pairwise.cons ?_ (List.pairwise_singleton _ _)))))
    · intro b hb
      fin_cases hb
      exacts [d12, d13, d14, d15, d16]
    · intro b hb
      fin_cases hb
      exacts [d23, d24, d25, d26]
    · intro b hb
      fin_cases hb
      exacts [d34, d35, d36]
    · intro b hb
      fin_cases hb
      exacts [d45, d46]
    · intro b hb
      fin_cases hb
      exacts [d56]
  exact firstSome_reverse _ hpair

/-- What `parse_report` assembles for erasure record `e` of report `x`
(`Except.error` when the join raises `KeyError`). -/
def assembled (x : Xml) (e : Rec) : Except String Rec :=
  assembleOne (descRec x) (hardRec x) (softRec x) (userRec x) (diskRecs x) e

/-- The success-path record for erasure record `e` of report `x`. -/
def assembledT (x : Xml) (e : Rec) : Rec :=
  assembleOneT (descRec x) (hardRec x) (softRec x) (userRec x) (diskRecs x) e

theorem lookupKey_eq_none_of_prefix (m : Rec) (P k : String)
    (hm : ∀ k', (lookupKey m k').isSome → ∃ r, k' = P ++ r)
    (hk : ∀ r, k ≠ P ++ r) : lookupKey m k = none := by
  cases h : lookupKey m k with
  | none => rfl
  | some v =>
      rcases hm k (by rw [h]; rfl) with ⟨r, hr⟩
      exact absurd hr (hk r)

/-! ### The raising join agrees with its success-path form -/

/-- Reduction of `diskStep` when the disk record carries `disk.type`. -/
theorem diskStep_eq_of_some (acc d : Rec) (dv : Option String)
    (htt : (lookupKey acc "erasure.target.type").isSome)
    (hd : lookupKey d "disk.type" = some dv) :
    diskStep acc d = if some dv = lookupKey acc "erasure.target.type"
      then Except.ok (pyUpdate acc d) else Except.ok acc := by
  rw [diskStep, if_pos htt, hd]

theorem diskStep_ok_of_type (acc d : Rec)
    (h : (lookupKey d "disk.type").isSome
      ∨ lookupKey acc "erasure.target.type" = none) :
    diskStep acc d = Except.ok (diskStepT acc d) := by
  by_cases htt : (lookupKey acc "erasure.target.type").isSome
  · rcases h with h | h
    · cases hd : lookupKey d "disk.type" with
      | none => rw [hd] at h; simp at h
      | some dv =>
          rw [diskStep_eq_of_some acc d dv htt hd, diskStepT]
          by_cases hm : some dv = lookupKey acc "erasure.target.type"
          · rw [if_pos hm, if_pos ⟨htt, by rw [hd, hm]⟩]
          · rw [if_neg hm, if_neg (fun hc => hm (hd ▸ hc.2))]
    · rw [h] at htt
      simp at htt
  · rw [diskStep, diskStepT, if_neg htt, if_neg (fun hc => htt hc.1)]

theorem diskStep_ok_elim (acc d acc' : Rec) (h : diskStep acc d = Except.ok acc') :
    acc' = diskStepT acc d := by
  by_cases htt : (lookupKey acc "erasure.target.type").isSome
  · cases hd : lookupKey d "disk.type" with
    | none =>
        rw [diskStep, if_pos htt, hd] at h
        cases h
    | some dv =>
        rw [diskStep_eq_of_some acc d dv htt hd] at h
        by_cases hm : some dv = lookupKey acc "erasure.target.type"
        · rw [if_pos hm] at h
          rw [diskStepT, if_pos ⟨htt, by rw [hd, hm]⟩]
          exact (Except.ok.inj h).symm
        · rw [if_neg hm] at h
          rw [diskStepT, if_neg (fun hc => hm (hd ▸ hc.2))]
          exact (Except.ok.inj h).symm
  · rw [diskStep, if_neg htt] at h
    rw [diskStepT, if_neg (fun hc => htt hc.1)]
    exact (Except.ok.inj h).symm

theorem lookupKey_pyUpdate_isSome_mono (acc d : Rec) (k : String)
    (h : (lookupKey acc k).isSome) : (lookupKey (pyUpdate acc d) k).isSome := by
  rw [lookupKey_pyUpdate_split]
  cases lookupKey (pyUpdate [] d) k with
  | none => exact h
  | some v => rfl

theorem foldlM_diskStep_ok_of_types (ds : List Rec) :
    ∀ acc : Rec, (∀ d ∈ ds, (lookupKey d "disk.type").isSome) →
      ds.foldlM diskStep acc = Except.ok (ds.foldl diskStepT acc) := by
  induction ds with
  | nil => intro acc _; rfl
  | cons d t ih =>
      intro acc h
      rw [List.foldlM_cons, diskStep_ok_of_type acc d (Or.inl (h d (by simp)))]
      show t.foldlM diskStep (diskStepT acc d)
        = Except.ok (t.foldl diskStepT (diskStepT acc d))
      exact ih (diskStepT acc d) (fun d' hd' => h d' (by simp [hd']))

theorem foldlM_diskStep_ok_of_no_target (ds : List Rec) :
    ∀ acc : Rec, lookupKey acc "erasure.target.type" = none →
      ds.foldlM diskStep acc = Except.ok (ds.foldl diskStepT acc) := by
  induction ds with
  | nil => intro acc _; rfl
  | cons d t ih =>
      intro acc h
      rw [List.foldlM_cons, diskStep_ok_of_type acc d (Or.inr h)]
      have hT : diskStepT acc d = acc := by
        rw [diskStepT, if_neg]
        intro hc
        rw [h] at hc
        simp at hc
      show t.foldlM diskStep (diskStepT acc d)
        = Except.ok (t.foldl diskStepT (diskStepT acc d))
      rw [hT]
      exact ih acc h

theorem foldlM_diskStep_ok_elim (ds : List Rec) :
    ∀ acc e3 : Rec, ds.foldlM diskStep acc = Except.ok e3 →
      e3 = ds.foldl diskStepT acc := by
  induction ds with
  | nil =>
      intro acc e3 h
      rw [List.foldlM_nil] at h
      exact (Except.ok.inj h).symm
  | cons d t ih =>
      intro acc e3 h
      rw [List.foldlM_cons] at h
      cases hs : diskStep acc d with
      | error msg =>
          rw [hs] at h
          exact absurd h (by simp [Bind.bind, Except.bind])
      | ok acc' =>
          rw [hs] at h
          have h' : t.foldlM diskStep acc' = Except.ok e3 := h
          rw [diskStep_ok_elim acc d acc' hs] at h'
          show e3 = t.foldl diskStepT (diskStepT acc d)
          exact ih (diskStepT acc d) e3 h'

theorem foldlM_diskStep_error (ds : List Rec) :
    ∀ acc : Rec, (lookupKey acc "erasure.target.type").isSome →
      (∃ d ∈ ds, lookupKey d "disk.type" = none) →
      ds.foldlM diskStep acc = Except.error "KeyError: disk.type" := by
  induction ds with
  | nil => intro acc _ hex; simp at hex
  | cons d t ih =>
      intro acc htt hex
      rw [List.foldlM_cons]
      cases hd : lookupKey d "disk.type" with
      | none =>
          have hs : diskStep acc d = Except.error "KeyError: disk.type" := by
            rw [diskStep, if_pos htt, hd]
          rw [hs]
          rfl
      | some dv =>
          have hex' : ∃ d' ∈ t, lookupKey d' "disk.type" = none := by
            rcases hex with ⟨d', hd', hnone⟩
            rcases List.mem_cons.1 hd' with rfl | hmem
            · rw [hd] at hnone
              cases hnone
            · exact ⟨d', hmem, hnone⟩
          by_cases hm : some dv = lookupKey acc "erasure.target.type"
          · have hs : diskStep acc d = Except.ok (pyUpdate acc d) := by
              rw [diskStep_eq_of_some acc d dv htt hd, if_pos hm]
            rw [hs]
            show t.foldlM diskStep (pyUpdate acc d) = _
            exact ih (pyUpdate acc d) (lookupKey_pyUpdate_isSome_mono acc d _ htt) hex'
          · have hs : diskStep acc d = Except.ok acc := by
              rw [diskStep_eq_of_some acc d dv htt hd, if_neg hm]
            rw [hs]
            show t.foldlM diskStep acc = _
            exact ih acc htt hex'

theorem diskJoin_ok_elim (disks : List Rec) (acc e3 : Rec)
    (h : diskJoin disks acc = Except.ok e3) : e3 = diskJoinT disks acc := by
  rw [diskJoin] at h
  rw [diskJoinT]
  by_cases hlen : 1 < disks.length
  · rw [if_pos hlen] at h
    rw [if_pos hlen]
    exact foldlM_diskStep_ok_elim disks acc e3 h
  · rw [if_neg hlen] at h
    rw [if_neg hlen]
    by_cases h1 : disks.length = 1
    · rw [if_pos h1] at h
      rw [if_pos h1]
      exact (Except.ok.inj h).symm
    · rw [if_neg h1] at h
      rw [if_neg h1]
      exact (Except.ok.inj h).symm

theorem diskJoin_ok_of (disks : List Rec) (acc : Rec)
    (h : (∀ d ∈ disks, (lookupKey d "disk.type").isSome)
      ∨ lookupKey acc "erasure.target.type" = none
      ∨ disks.length ≤ 1) :
    diskJoin disks acc = Except.ok (diskJoinT disks acc) := by
  rw [diskJoin, diskJoinT]
  by_cases hlen : 1 < disks.length
  · rw [if_pos hlen, if_pos hlen]
    rcases h with h | h | h
    · exact foldlM_diskStep_ok_of_types disks acc h
    · exact foldlM_diskStep_ok_of_no_target disks acc h
    · omega
  · rw [if_neg hlen, if_neg hlen]
    by_cases h1 : disks.length = 1
    · rw [if_pos h1, if_pos h1]
    · rw [if_neg h1, if_neg h1]

theorem diskJoin_error_of_missing (disks : List Rec) (acc : Rec)
    (hlen : 1 < disks.length)
    (htt : (lookupKey acc "erasure.target.type").isSome)
    (hmiss : ∃ d ∈ disks, lookupKey d "disk.type" = none) :
    diskJoin disks acc = Except.error "KeyError: disk.type" := by
  rw [diskJoin, if_pos hlen]
  exact foldlM_diskStep_error disks acc htt hmiss

/-- `e.update(description); e.update(hardware)` cannot touch the erasure
target type (their keys are description- and hardware-prefixed). -/
theorem target_type_stable (x : Xml) (e : Rec) :
    lookupKey (pyUpdate (pyUpdate e (descRec x)) (hardRec x))
        "erasure.target.type"
      = lookupKey e "erasure.target.type" := by
  have hD : NodupKeys (descRec x) := flatten_nodupKeys _ _
  have hH : NodupKeys (hardRec x) := flatten_nodupKeys _ _
  have httD : lookupKey (descRec x) "erasure.target.type" = none := by
    cases hm : lookupKey (descRec x) "erasure.target.type" with
    | none => rfl
    | some v =>
        rcases descRec_keys x "erasure.target.type" (by rw [hm]; rfl) with ⟨r, hr⟩
        exact absurd hr (ne_append_of_head "erasure.target.type" "description." r
          'e' 'd' rfl rfl (by decide))
  have httH : lookupKey (hardRec x) "erasure.target.type" = none := by
    cases hm : lookupKey (hardRec x) "erasure.target.type" with
    | none => rfl
    | some v =>
        rcases hardRec_keys x "erasure.target.type" (by rw [hm]; rfl) with ⟨r, hr⟩
        exact absurd hr (ne_append_of_head "erasure.target.type" "hardware." r
          'e' 'h' rfl rfl (by decide))
  rw [lookupKey_pyUpdate_miss _ _ _ hH httH, lookupKey_pyUpdate_miss _ _ _ hD httD]

theorem assembled_ok_elim (x : Xml) (e F : Rec)
    (h : assembled x e = Except.ok F) : F = assembledT x e := by
  rw [assembled, assembleOne] at h
  cases hj : diskJoin (diskRecs x) (pyUpdate (pyUpdate e (descRec x)) (hardRec x)) with
  | error msg => rw [hj] at h; cases h
  | ok e3 =>
      rw [hj] at h
      rw [assembledT, assembleOneT, ← diskJoin_ok_elim _ _ _ hj]
      exact (Except.ok.inj h).symm

theorem assembled_ok_of (x : Xml) (e : Rec)
    (h : (∀ d ∈ diskRecs x, (lookupKey d "disk.type").isSome)
      ∨ lookupKey e "erasure.target.type" = none
      ∨ (diskRecs x).length ≤ 1) :
    assembled x e = Except.ok (assembledT x e) := by
  have h' : (∀ d ∈ diskRecs x, (lookupKey d "disk.type").isSome)
      ∨ lookupKey (pyUpdate (pyUpdate e (descRec x)) (hardRec x))
          "erasure.target.type" = none
      ∨ (diskRecs x).length ≤ 1 := by
    rcases h with h | h | h
    · exact Or.inl h
    · exact Or.inr (Or.inl (by rw [target_type_stable x e, h]))
    · exact Or.inr (Or.inr h)
  rw [assembled, assembleOne, diskJoin_ok_of _ _ h']
  rfl

theorem assembled_error_of_missing (x : Xml) (e : Rec)
    (hlen : 1 < (diskRecs x).length)
    (htt : (lookupKey e "erasure.target.type").isSome)
    (hmiss : ∃ d ∈ diskRecs x, lookupKey d "disk.type" = none) :
    assembled x e = Except.error "KeyError: disk.type" := by
  rw [assembled, assembleOne, diskJoin_error_of_missing _ _ hlen
    (by rw [target_type_stable x e]; exact htt) hmiss]

/-- C3 — Report Assembler overlay precedence: whenever `parse_report`
assembles a record for an erasure record (the disk join raised no
`KeyError`), that record is built by overlaying, in the fixed order, the
erasure record, description fields, hardware fields, the matched disk
contribution, software fields and user-fields; each key of the result holds
the value from the earliest-listed source that binds it, so for any key
present in both an earlier overlay and a later overlay the finalized record
holds the earlier overlay's value. -/
theorem parse_report_overlay_precedence (x : Xml) (e F : Rec)
    (he : e ∈ eraseRecs x) (hF : assembled x e = Except.ok F) (k : String) :
    lookupKey F k =
      firstSome
        [lookupKey e k, lookupKey (descRec x) k, lookupKey (hardRec x) k,
          lookupKey (diskContribution (diskRecs x) e) k,
          lookupKey (softRec x) k, lookupKey (userRec x) k] := by
  rw [assembled_ok_elim x e F hF]
  exact lookupKey_assembled_firstSome x e he k

/-- Success-path disk-join characterization, used by the C1 claim below. -/
theorem assembledT_disk_join (x : Xml) (e : Rec) (he : e ∈ eraseRecs x) :
    (diskRecs x = [] → ∀ r, lookupKey (assembledT x e) ("disk." ++ r) = none)
    ∧ (∀ d, diskRecs x = [d] →
        ∀ k v, lookupKey d k = some v → lookupKey (assembledT x e) k = some v)
    ∧ (1 < (diskRecs x).length → lookupKey e "erasure.target.type" = none →
        ∀ r, lookupKey (assembledT x e) ("disk." ++ r) = none)
    ∧ (∀ tv, 1 < (diskRecs x).length →
        lookupKey e "erasure.target.type" = some tv →
        ∀ r, lookupKey (assembledT x e) ("disk." ++ r) =
          lookupKey
            (((diskRecs x).filter
              (fun d => decide (lookupKey d "disk.type" = some tv))).foldl
                pyUpdate [])
            ("disk." ++ r))
    ∧ (∀ tv d, 1 < (diskRecs x).length →
        lookupKey e "erasure.target.type" = some tv →
        (diskRecs x).filter (fun d => decide (lookupKey d "disk.type" = some tv))
          = [d] →
        ∀ k v, lookupKey d k = some v → lookupKey (assembledT x e) k = some v) := by
  have hnone : ∀ r,
      lookupKey e ("disk." ++ r) = none
      ∧ lookupKey (descRec x) ("disk." ++ r) = none
      ∧ lookupKey (hardRec x) ("disk." ++ r) = none
      ∧ lookupKey (softRec x) ("disk." ++ r) = none
      ∧ lookupKey (userRec x) ("disk." ++ r) = none := by
    intro r
    refine ⟨?_, ?_, ?_, ?_, ?_⟩
    · exact lookupKey_eq_none_of_prefix e "erasure." _ (eraseRecs_keys x e he)
        (fun r' => append_ne_append_head "disk." "erasure." r r' 'd' 'e'
          rfl rfl (by decide))
    · exact lookupKey_eq_none_of_prefix (descRec x) "description." _ (descRec_keys x)
        (fun r' => append_ne_append_two "disk." "description." r r' 'd' 'i' 'e'
          ("sk.").data ("scription.").data rfl rfl (by decide))
    · exact lookupKey_eq_none_of_prefix (hardRec x) "hardware." _ (hardRec_keys x)
        (fun r' => append_ne_append_head "disk." "hardware." r r' 'd' 'h'
          rfl rfl (by decide))
    · exact lookupKey_eq_none_of_prefix (softRec x) "software." _ (softRec_keys x)
        (fun r' => append_ne_append_head "disk." "software." r r' 'd' 's'
          rfl rfl (by decide))
    · exact lookupKey_eq_none_of_prefix (userRec x) "user_data." _ (userRec_keys x)
        (fun r' => append_ne_append_head "disk." "user_data." r r' 'd' 'u'
          rfl rfl (by decide))
  have hmain : ∀ r, lookupKey (assembledT x e) ("disk." ++ r) =
      match lookupKey (diskContribution (diskRecs x) e) ("disk." ++ r) with
      | some v => some v
      | none => none := by
    intro r
    obtain ⟨h1, h2, h3, h4, h5⟩ := hnone r
    rw [assembledT, lookupKey_assembled_firstSome x e he, h1, h2, h3, h4, h5]
    simp [firstSome]
  refine ⟨?_, ?_, ?_, ?_, ?_⟩
  · intro hd r
    rw [hmain r, hd]
    simp [diskContribution, lookupKey]
  · intro d hd k v hv
    have hdm : d ∈ diskRecs x := by rw [hd]; simp
    rcases diskRecs_keys x d hdm k (by rw [hv]; rfl) with ⟨r, rfl⟩
    rw [hmain r, hd]
    simp only [diskContribution, List.length_cons, List.length_nil]
    norm_num
    rw [hv]
  · intro hlen htt r
    rw [hmain r]
    simp only [diskContribution, if_pos hlen, htt]
    simp [lookupKey]
  · intro tv hlen htt r
    rw [hmain r]
    simp only [diskContribution, if_pos hlen, htt]
    cases lookupKey
        (((diskRecs x).filter
          (fun d => decide (lookupKey d "disk.type" = some tv))).foldl pyUpdate [])
        ("disk." ++ r) <;> simp
  · intro tv d hlen htt hfil k v hv
    have hdm : d ∈ diskRecs x := List.mem_of_mem_filter (p := fun d =>
      decide (lookupKey d "disk.type" = some tv)) (by rw [hfil]; simp)
    rcases diskRecs_keys x d hdm k (by rw [hv]; rfl) with ⟨r, rfl⟩
    rw [hmain r]
    simp only [diskContribution, if_pos hlen, htt, hfil]
    rw [show ([d] : List Rec).foldl pyUpdate [] = pyUpdate [] d from rfl,
      pyUpdate_nil_of_nodup d (diskRecs_nodup x d hdm), hv]

/-! ### Concrete example reports -/

def xLeaf (t v : String) : Xml := Xml.node t (some v) []

/-- One erasure (target type `USB`) and two disks that both carry
`disk.type = USB` but different remaining fields. -/
def exReportTwoUSB : Xml :=
  Xml.node "report" none
    [Xml.node "blancco_data" none
      [Xml.node "description" none [xLeaf "document_id" "42"],
       Xml.node "blancco_hardware_report" none
         [Xml.node "system" none [xLeaf "model" "M1"],
          Xml.node "disks" none
            [Xml.node "disk" none [xLeaf "type" "USB", xLeaf "vendor" "V1"],
             Xml.node "disk" none [xLeaf "type" "USB", xLeaf "serial" "S2"]]],
       Xml.node "blancco_erasure_report" none
         [Xml.node "erasures" none
           [Xml.node "erasure" none
             [Xml.node "target" none [xLeaf "type" "USB"]]]]]]

/-- One erasure (target type `USB`) and a single `SATA` disk. -/
def exReportOneSATA : Xml :=
  Xml.node "report" none
    [Xml.node "blancco_data" none
      [Xml.node "description" none [xLeaf "document_id" "doc-1"],
       Xml.node "blancco_hardware_report" none
         [Xml.node "system" none [xLeaf "model" "M1"],
          Xml.node "disks" none
            [Xml.node "disk" none [xLeaf "type" "SATA", xLeaf "serial" "S1"]]],
       Xml.node "blancco_software_report" none
         [Xml.node "operating_system" none [xLeaf "name" "iOS"]],
       Xml.node "blancco_erasure_report" none
         [Xml.node "erasures" none
           [Xml.node "erasure" none
             [xLeaf "state" "Successful",
              Xml.node "target" none [xLeaf "type" "USB"]]]]],
     Xml.node "user_data" none
       [Xml.node "fields" none [xLeaf "r_location" "NYC"]]]

/-- The single erasure record of `exReportOneSATA`. -/
def exErasure : Rec :=
  [("erasure.state", some "Successful"), ("erasure.target.type", some "USB")]

/-- C1 (amended) — Disk-join rule of the Report Assembler: with zero disks
the record assembles and no disk field appears; with exactly one disk it
assembles with that disk merged unconditionally regardless of type; with
several disks and no `erasure.target.type` key it assembles with no disk
joined; with several disks and a target type, provided every disk record
carries `disk.type`, it assembles with *every* type-matching disk merged in
list order (later matches overwrite shared keys) — so exactly one DiskEntry
is joined exactly when exactly one disk matches; and when some disk record
lacks `disk.type` while the erasure has a target type, `parse_report`
raises `KeyError` and no record is assembled. -/
theorem parse_report_disk_join (x : Xml) (e : Rec) (he : e ∈ eraseRecs x) :
    (diskRecs x = [] →
      ∃ F, assembled x e = Except.ok F
        ∧ ∀ r, lookupKey F ("disk." ++ r) = none)
    ∧ (∀ d, diskRecs x = [d] →
      ∃ F, assembled x e = Except.ok F
        ∧ ∀ k v, lookupKey d k = some v → lookupKey F k = some v)
    ∧ (1 < (diskRecs x).length → lookupKey e "erasure.target.type" = none →
      ∃ F, assembled x e = Except.ok F
        ∧ ∀ r, lookupKey F ("disk." ++ r) = none)
    ∧ (∀ tv, 1 < (diskRecs x).length →
      lookupKey e "erasure.target.type" = some tv →
      (∀ d ∈ diskRecs x, (lookupKey d "disk.type").isSome) →
      ∃ F, assembled x e = Except.ok F
        ∧ ∀ r, lookupKey F ("disk." ++ r) =
            lookupKey (((diskRecs x).filter
              (fun d => decide (lookupKey d "disk.type" = some tv))).foldl
                pyUpdate []) ("disk." ++ r))
    ∧ (∀ tv d, 1 < (diskRecs x).length →
      lookupKey e "erasure.target.type" = some tv →
      (∀ d' ∈ diskRecs x, (lookupKey d' "disk.type").isSome) →
      (diskRecs x).filter (fun d' => decide (lookupKey d' "disk.type" = some tv))
        = [d] →
      ∃ F, assembled x e = Except.ok F
        ∧ ∀ k v, lookupKey d k = some v → lookupKey F k = some v)
    ∧ (1 < (diskRecs x).length →
      (lookupKey e "erasure.target.type").isSome →
      (∃ d ∈ diskRecs x, lookupKey d "disk.type" = none) →
      assembled x e = Except.error "KeyError: disk.type") := by
  obtain ⟨h1, h2, h3, h4, h5⟩ := assembledT_disk_join x e he
  refine ⟨?_, ?_, ?_, ?_, ?_, ?_⟩
  · intro hd
    exact ⟨assembledT x e,
      assembled_ok_of x e (Or.inr (Or.inr (by rw [hd]; simp))), h1 hd⟩
  · intro d hd
    exact ⟨assembledT x e,
      assembled_ok_of x e (Or.inr (Or.inr (by rw [hd]; simp))), h2 d hd⟩
  · intro hlen htt
    exact ⟨assembledT x e, assembled_ok_of x e (Or.inr (Or.inl htt)),
      h3 hlen htt⟩
  · intro tv hlen htt hall
    exact ⟨assembledT x e, assembled_ok_of x e (Or.inl hall), h4 tv hlen htt⟩
  · intro tv d hlen htt hall hfil
    exact ⟨assembledT x e, assembled_ok_of x e (Or.inl hall),
      h5 tv d hlen htt hfil⟩
  · intro hlen htt hmiss
    exact assembled_error_of_missing x e hlen htt hmiss

/-- C1 counterexample: with two disks both of the erasure's target type, the
assembly succeeds and the record carries `disk.vendor` from the first disk
and `disk.serial` from the second; no single DiskEntry holds both, so the
record is not the join of exactly one matching DiskEntry as the claim
states. -/
theorem parse_report_disk_join_counterexample :
    (diskRecs exReportTwoUSB).length = 2
    ∧ (parse_report exReportTwoUSB).toOption.map List.length = some 1
    ∧ lookupKey (((parse_report exReportTwoUSB).toOption.getD []).headD [])
        "disk.vendor" = some (some "V1")
    ∧ lookupKey (((parse_report exReportTwoUSB).toOption.getD []).headD [])
        "disk.serial" = some (some "S2")
    ∧ ∀ d ∈ diskRecs exReportTwoUSB,
        ¬ (lookupKey d "disk.vendor" = some (some "V1")
          ∧ lookupKey d "disk.serial" = some (some "S2")) := by
  decide

/-- C1 witness: the single-disk branch of the join rule on a concrete report
whose only disk's type (`SATA`) differs from the erasure target type
(`USB`) — the assembly succeeds and the disk is merged anyway. -/
theorem parse_report_disk_join_witness :
    (assembled exReportOneSATA exErasure).toOption.isSome = true
    ∧ lookupKey ((assembled exReportOneSATA exErasure).toOption.getD [])
        "disk.serial" = some (some "S1") := by
  obtain ⟨F, hF, hp⟩ :=
    (parse_report_disk_join exReportOneSATA exErasure (by decide)).2.1
      [("disk.type", some "SATA"), ("disk.serial", some "S1")] (by decide)
  rw [hF]
  exact ⟨rfl, hp "disk.serial" (some "S1") (by decide)⟩

/-- C3 witness: overlay precedence evaluated on a concrete report and key,
with the successful assembly exhibited. -/
theorem parse_report_overlay_precedence_witness :
    exErasure ∈ eraseRecs exReportOneSATA
    ∧ assembled exReportOneSATA exErasure
        = Except.ok (assembledT exReportOneSATA exErasure)
    ∧ lookupKey (assembledT exReportOneSATA exErasure) "description.document_id"
      = firstSome
          [lookupKey exErasure "description.document_id",
            lookupKey (descRec exReportOneSATA) "description.document_id",
            lookupKey (hardRec exReportOneSATA) "description.document_id",
            lookupKey (diskContribution (diskRecs exReportOneSATA) exErasure)
              "description.document_id",
            lookupKey (softRec exReportOneSATA) "description.document_id",
            lookupKey (userRec exReportOneSATA) "description.document_id"] :=
  ⟨by decide, by rfl,
    parse_report_overlay_precedence exReportOneSATA exErasure
      (assembledT exReportOneSATA exErasure) (by decide) (by rfl)
      "description.document_id"⟩

/-! ### C2 / C9 — Flattener merge discipline -/

/-- C2 — Flattener first-seen-wins merge: merging a child's recursive result
into the accumulator never overwrites a key already present, and when two
sibling branches (children that themselves have children) produce the same
dotted key, `flatten` retains the value from the earlier-processed branch:
over internal branches the result is the first-seen-wins scan. -/
theorem flatten_first_seen_wins :
    (∀ (pre : String) (acc : Rec) (c : Xml), c.children ≠ [] →
      ∀ k v, lookupKey acc k = some v → lookupKey (flattenStep c pre acc) k = some v)
    ∧ ∀ (els : List Xml) (pre : String), (∀ c ∈ els, c.children ≠ []) →
      ∀ k, lookupKey (flatten els pre) k =
        firstSome (els.map
          (fun c => lookupKey (flatten c.children (pre ++ "." ++ c.tag)) k)) := by
  constructor
  · intro pre acc c hc k v hv
    obtain ⟨tag, tx, ch⟩ := c
    cases ch with
    | nil => simp [Xml.children] at hc
    | cons c0 cs =>
        show lookupKey
            (updateNoOverwrite acc (flatten (c0 :: cs) (pre ++ "." ++ tag))) k = some v
        rw [lookupKey_updateNoOverwrite, hv]
  · intro els pre h k
    rw [flatten, flattenAux_internal_lookup els pre [] k h]
    simp [lookupKey]

/-- Two internal sibling branches with the same tag, producing the same key
with different values: the earlier-processed branch wins. -/
def exSiblings : List Xml :=
  [Xml.node "entries" none [xLeaf "a" "first"],
   Xml.node "entries" none [xLeaf "a" "second"]]

/-- C2 witness: evaluated on two same-tag internal siblings. -/
theorem flatten_first_seen_wins_witness :
    lookupKey (flatten exSiblings "user_data") "user_data.entries.a"
        = some (some "first")
    ∧ firstSome (exSiblings.map
        (fun c => lookupKey (flatten c.children ("user_data" ++ "." ++ c.tag))
          "user_data.entries.a")) = some (some "first") := by
  have h := flatten_first_seen_wins.2 exSiblings "user_data"
    (by intro c hc; fin_cases hc <;> simp [Xml.children, xLeaf])
    "user_data.entries.a"
  exact ⟨by rw [h]; decide, by decide⟩

/-- C9 — leaf siblings are last-seen-wins: a leaf child assigns its key
unconditionally, so with two leaf children of the same tag the later text
wins, provided no later leaf sibling rebinds the same key (internal
siblings never overwrite it). -/
theorem flatten_leaf_last_wins (pre : String) (l1 l2 l3 : List Xml)
    (t : String) (v1 v2 : Option String)
    (h : ∀ c ∈ l3, c.children = [] → leafKey pre c.tag ≠ leafKey pre t) :
    lookupKey
        (flatten (l1 ++ (Xml.node t v1 [] :: (l2 ++ (Xml.node t v2 [] :: l3)))) pre)
        (leafKey pre t) = some v2 := by
  have e1 : flatten (l1 ++ (Xml.node t v1 [] :: (l2 ++ (Xml.node t v2 [] :: l3)))) pre
      = flattenAux l3 pre
          (setKey
            (flattenAux l2 pre
              (setKey (flattenAux l1 pre []) (leafKey pre t) v1))
            (leafKey pre t) v2) := by
    rw [flatten, flattenAux_append]
    show flattenAux (l2 ++ (Xml.node t v2 [] :: l3)) pre
        (setKey (flattenAux l1 pre []) (leafKey pre t) v1) = _
    rw [flattenAux_append]
    rfl
  rw [e1]
  exact flattenAux_preserves l3 pre _ _ v2 (by rw [lookupKey_setKey, if_pos rfl]) h

/-- C9 witness: two same-tag leaves, the later text is kept. -/
theorem flatten_leaf_last_wins_witness :
    lookupKey (flatten [xLeaf "x" "v1", xLeaf "x" "v2"] "user_data")
      (leafKey "user_data" "x") = some (some "v2") := by
  have h := flatten_leaf_last_wins "user_data" [] [] [] "x"
    (some "v1") (some "v2") (by simp)
  simpa [xLeaf] using h

/-! ### C4 — Window Cursor (`get_dates` and the `main` loop of the
database variant) -/

/-- `get_dates` from the source, timestamps as integer epoch seconds:
`from_date` is the persisted checkpoint (`control['to_date']`),
`to_date = from_date + timedelta(hours=1)`, clamped back to `from_date`
whenever it would exceed `datetime.utcnow()`. -/
def get_dates (checkpoint now : Int) : Int × Int :=
  let from_date := checkpoint
  let to_date := from_date + 3600
  if to_date > now then (from_date, from_date) else (from_date, to_date)

/-- The `while dates['to_date'] != dates['from_date']` loop of `main`, with
every cycle succeeding: after each cycle `write_control_file(dates)` persists
`to_date`, which the next `get_dates()` reads back as the checkpoint.
Returns the executed extraction windows and the final checkpoint; `fuel`
bounds the number of iterations. -/
def loopWindows : Nat → Int → Int → List (Int × Int) × Int
  | 0, checkpoint, _ => ([], checkpoint)
  | fuel+1, checkpoint, now =>
      let d := get_dates checkpoint now
      if d.2 = d.1 then ([], checkpoint)
      else
        let rest := loopWindows fuel d.2 now
        ((d.1, d.2) :: rest.1, rest.2)

theorem loopWindows_spec (now : Int) : ∀ (fuel : Nat) (T : Int),
    (∀ w ∈ (loopWindows fuel T now).1, w.2 = w.1 + 3600 ∧ w.2 ≤ now)
    ∧ ((loopWindows fuel T now).1 = []
        ∨ ∃ ws, (loopWindows fuel T now).1 = (T, T + 3600) :: ws)
    ∧ List.Chain' (fun a b => b.1 = a.2) (loopWindows fuel T now).1 := by
  intro fuel
  induction fuel with
  | zero => intro T; simp [loopWindows]
  | succ n ih =>
      intro T
      by_cases hidle : now < T + 3600
      · have hd : get_dates T now = (T, T) := by
          rw [get_dates, if_pos (by omega)]
        simp [loopWindows, hd]
      · have hd : get_dates T now = (T, T + 3600) := by
          rw [get_dates, if_neg (by omega)]
        have hne : ¬ ((T, T + 3600) : Int × Int).2 = (T, T + 3600).1 := by
          simp
        have hstep : loopWindows (n+1) T now
            = ((T, T + 3600) :: (loopWindows n (T + 3600) now).1,
                (loopWindows n (T + 3600) now).2) := by
          rw [loopWindows]
          simp only [hd]
          rw [if_neg hne]
        rw [hstep]
        obtain ⟨ihw, ihshape, ihchain⟩ := ih (T + 3600)
        refine ⟨?_, Or.inr ⟨_, rfl⟩, ?_⟩
        · intro w hw
          rcases List.mem_cons.1 hw with rfl | hw'
          · exact ⟨rfl, by omega⟩
          · exact ihw w hw'
        · rw [List.chain'_cons']
          refine ⟨?_, ihchain⟩
          intro b hb
          rcases ihshape with hnil | ⟨ws, hws⟩
          · rw [hnil] at hb
            simp at hb
          · rw [hws] at hb
            simp at hb
            rw [← hb]

/-- C4 — Window Cursor advance: for checkpoint `T` and step one hour, if the
current time is before `T+1h` the window is `(T, T)` and zero cycles run;
otherwise the window is `(T, T+1h)` and after a successful cycle the
persisted checkpoint is `T+1h`; the executed windows form a gap-free
sequence of fixed one-hour width, strictly increasing, never extending past
the current time. -/
theorem window_cursor_advance (T now : Int) :
    (now < T + 3600 →
      get_dates T now = (T, T) ∧ ∀ fuel, loopWindows fuel T now = ([], T))
    ∧ (T + 3600 ≤ now →
      get_dates T now = (T, T + 3600) ∧
      ∀ fuel, loopWindows (fuel+1) T now
        = ((T, T + 3600) :: (loopWindows fuel (T + 3600) now).1,
            (loopWindows fuel (T + 3600) now).2))
    ∧ (∀ fuel, (∀ w ∈ (loopWindows fuel T now).1,
          w.1 < w.2 ∧ w.2 = w.1 + 3600 ∧ w.2 ≤ now)
        ∧ List.Chain' (fun a b => b.1 = a.2) (loopWindows fuel T now).1) := by
  refine ⟨?_, ?_, ?_⟩
  · intro hidle
    have hd : get_dates T now = (T, T) := by
      rw [get_dates, if_pos (by omega)]
    refine ⟨hd, ?_⟩
    intro fuel
    cases fuel with
    | zero => rfl
    | succ n =>
        rw [loopWindows]
        simp [hd]
  · intro hact
    have hd : get_dates T now = (T, T + 3600) := by
      rw [get_dates, if_neg (by omega)]
    refine ⟨hd, ?_⟩
    intro fuel
    rw [loopWindows]
    simp only [hd]
    rw [if_neg (by simp)]
  · intro fuel
    obtain ⟨hw, _, hchain⟩ := loopWindows_spec now fuel T
    refine ⟨?_, hchain⟩
    intro w hmem
    obtain ⟨h1, h2⟩ := hw w hmem
    exact ⟨by omega, h1, h2⟩

/-- C4 witness: checkpoint 0; at time 1800 the cursor idles, at time 7200
one window `(0, 3600)` runs and the checkpoint becomes 3600. -/
theorem window_cursor_advance_witness :
    get_dates 0 1800 = (0, 0) ∧ loopWindows 5 0 1800 = ([], 0)
    ∧ get_dates 0 7200 = (0, 3600)
    ∧ loopWindows 1 0 7200 = ([(0, 3600)], 3600) := by
  refine ⟨((window_cursor_advance 0 1800).1 (by omega)).1,
    ((window_cursor_advance 0 1800).1 (by omega)).2 5,
    ((window_cursor_advance 0 7200).2.1 (by omega)).1, ?_⟩
  rw [((window_cursor_advance 0 7200).2.1 (by omega)).2 0]
  rfl

/-! ### Batch cleansing (`write_to_stage` prologue / `clean_data`) -/

/-- Keep-first removal of exact duplicates (`df.drop_duplicates(keep='first')`,
and `SELECT DISTINCT`). -/
def dedupFirstAux {α : Type} [DecidableEq α] (seen : List α) : List α → List α
  | [] => []
  | x :: t =>
    if x ∈ seen then dedupFirstAux seen t else x :: dedupFirstAux (x :: seen) t

def dedupFirst {α : Type} [DecidableEq α] (l : List α) : List α := dedupFirstAux [] l

/-- `pd.notnull(df['description.document_id'])` for one row: the column is
present and not null. -/
def notNullDoc (r : Rec) : Bool :=
  match lookupKey r "description.document_id" with
  | some (some _) => true
  | _ => false

/-- Python slicing `s[:4000]` (`.str[:4000]`). -/
def pyTruncate (s : String) : String := String.mk (s.data.take 4000)

/-- `df[col] = df[col].str[:4000]` for every listed column present in the
row; null entries stay null, unlisted fields are untouched. -/
def truncateRec (cols : List String) (r : Rec) : Rec :=
  r.map (fun p => if p.1 ∈ cols then (p.1, p.2.map pyTruncate) else p)

/-- The three cleansing operations, in source order: drop exact full-row
duplicates keeping the first, drop rows with null/absent document id,
truncate the listed free-text columns to 4000 characters. -/
def cleanse (cols : List String) (df : List Rec) : List Rec :=
  ((dedupFirst df).filter notNullDoc).map (truncateRec cols)

/-- `truncate_columns` of `write_to_stage` (`blancco_api_to_db_orig.py`). -/
def truncate_columns_db : List String :=
  ["user_data.fields.batterycharging", "user_data.fields.comments",
   "user_data.fields.country", "user_data.fields.device_identifier",
   "user_data.fields.erasure_person", "user_data.fields.imei_2",
   "user_data.fields.imei_3", "user_data.fields.oppo_device_imeicache_1",
   "user_data.fields.oppo_device_imeicache_2",
   "user_data.fields.persist_sys_show_device_imei_1",
   "user_data.fields.persist_sys_updater_imei_1",
   "user_data.fields.persist_sys_updater_imei_2", "user_data.fields.r_counter",
   "user_data.fields.r_country", "user_data.fields.r_erasure",
   "user_data.fields.r_esim", "user_data.fields.r_fmip", "user_data.fields.r_frp",
   "user_data.fields.r_location", "user_data.fields.r_mdm",
   "user_data.fields.r_place", "user_data.fields.r_process",
   "user_data.fields.r_region", "user_data.fields.r_workstaion",
   "user_data.fields.r_workstation",
   "user_data.fields.ro_config_hw_imei_sv_enable_1",
   "user_data.fields.ro_config_hw_imei_sv_show_two_2",
   "user_data.fields.ro_imei_match_status_3",
   "user_data.fields.ro_product_imeisv_3", "user_data.fields.technician_name"]

/-- `truncate_columns` of `clean_data` (`blancco_api_to_db.py`). -/
def truncate_columns_file : List String :=
  ["user_data.fields.batterycharging", "user_data.fields.comments",
   "user_data.fields.country", "user_data.fields.device_identifier",
   "user_data.fields.imei_2", "user_data.fields.imei_3",
   "user_data.fields.oppo_device_imeicache_1",
   "user_data.fields.oppo_device_imeicache_2",
   "user_data.fields.persist_sys_show_device_imei_1",
   "user_data.fields.persist_sys_updater_imei_1",
   "user_data.fields.persist_sys_updater_imei_2", "user_data.fields.r_counter",
   "user_data.fields.r_country", "user_data.fields.r_erasure",
   "user_data.fields.r_esim", "user_data.fields.r_fmip", "user_data.fields.r_frp",
   "user_data.fields.r_location", "user_data.fields.r_mdm",
   "user_data.fields.r_place", "user_data.fields.r_process",
   "user_data.fields.r_region", "user_data.fields.r_workstation",
   "user_data.fields.ro_config_hw_imei_sv_enable_1",
   "user_data.fields.ro_config_hw_imei_sv_show_two_2",
   "user_data.fields.ro_imei_match_status_3",
   "user_data.fields.ro_product_imeisv_3", "user_data.fields.technician_name"]

/-! ### Load Reconciler (`truncate_stage` / `write_to_stage` /
`update_data_hash` / `write_to_final`) -/

/-- One staged (or fact) table row: the text columns plus `hash_data`. -/
structure StageRow where
  row : Rec
  hash_data : Option String
deriving DecidableEq

/-- The two tables touched by the reconciler:
`[blancco_data_stage]` and `[blancco_data]`. -/
structure Db where
  stage : List StageRow
  fact : List StageRow
deriving DecidableEq

/-- `TRUNCATE TABLE [blancco_data_stage]`. -/
def truncate_stage (db : Db) : Db := { db with stage := [] }

/-- Null values are coerced to the empty string on insert:
`'' if pd.isna(row[column]) else row[column]`. -/
def coerceRec (r : Rec) : Rec := r.map (fun p => (p.1, some (p.2.getD "")))

/-- `write_to_stage`: cleanses the batch and bulk-inserts it into the
staging table (the chunked transaction and the mapped-column projection are
external I/O; every record column is mapped here). -/
def write_to_stage (df : List Rec) (db : Db) : Db :=
  { db with
    stage := db.stage
      ++ (cleanse truncate_columns_db df).map (fun r => StageRow.mk (coerceRec r) none) }

/-- The argument of `HASHBYTES('MD5', ...)` in `update_data_hash`: the fixed
ordered concatenation `CAST([description.document_id] AS VARCHAR(36))`
followed by `ISNULL(field, '')` for the nine remaining identity fields.
(A SQL `NULL` column is a missing or `none` binding here; staged rows have
all nulls coerced to `''` before hashing ever runs.) -/
def hashInput (r : Rec) : String :=
  String.mk (((lookupKey r "description.document_id").join.getD "").data.take 36)
  ++ ((lookupKey r "erasure.start_time").join.getD "")
  ++ ((lookupKey r "erasure.end_time").join.getD "")
  ++ ((lookupKey r "erasure.erasure_standard_name").join.getD "")
  ++ ((lookupKey r "erasure.timestamp").join.getD "")
  ++ ((lookupKey r "erasure.target.serial").join.getD "")
  ++ ((lookupKey r "hardware.system.imei").join.getD "")
  ++ ((lookupKey r "hardware.system.imei_two").join.getD "")
  ++ ((lookupKey r "hardware.system.meid").join.getD "")
  ++ ((lookupKey r "hardware.system.meid_fourteen").join.getD "")

/-- `update_data_hash`: `UPDATE s SET [hash_data] = HASHBYTES('MD5', ...)`
over every staged row; `digest` abstracts the MD5 function. -/
def update_data_hash (digest : String → String) (db : Db) : Db :=
  { db with
    stage := db.stage.map (fun s => { s with hash_data := some (digest (hashInput s.row)) }) }

/-- `write_to_final`: `INSERT INTO [blancco_data] SELECT DISTINCT ... FROM
[blancco_data_stage] s LEFT JOIN [blancco_data] d ON d.[hash_data] =
s.[hash_data] WHERE d.RecId IS NULL` — append every distinct staged row
whose hash is absent from the fact table. -/
def write_to_final (db : Db) : Db :=
  { db with
    fact := db.fact
      ++ dedupFirst (db.stage.filter
          (fun s => decide (∀ f ∈ db.fact, f.hash_data ≠ s.hash_data))) }

/-- One full stage/hash/merge sequence of the data pipeline in `main`:
`truncate_stage; write_to_stage; update_data_hash; write_to_final`. -/
def runReconciler (digest : String → String) (df : List Rec) (db : Db) : Db :=
  write_to_final (update_data_hash digest (write_to_stage df (truncate_stage db)))

/-- The staged rows a batch produces (independent of the previous state). -/
def stagedRows (digest : String → String) (df : List Rec) : List StageRow :=
  (cleanse truncate_columns_db df).map
    (fun r => StageRow.mk (coerceRec r) (some (digest (hashInput (coerceRec r)))))

/-! ### C6 — ContentHash -/

/-- A row whose `erasure.start_time` column is SQL `NULL` (absent). -/
def exHashNull : Rec := [("description.document_id", some "D1")]

/-- The same identity with `erasure.start_time` the empty string. -/
def exHashEmpty : Rec :=
  [("description.document_id", some "D1"), ("erasure.start_time", some "")]

/-- C6 — ContentHash definition: `update_data_hash` stores, for every staged
row, `digest` of the fixed ordered concatenation of the ten identity fields
(document id cast to 36 characters, erasure start/end time, standard name,
timestamp, target serial, imei, imei_two, meid, meid_fourteen) with every
null field as the empty string; the hash depends on exactly those fields,
and a null field collides with an empty-string field (two distinct records,
one hash). -/
theorem content_hash_fixed_fields :
    (∀ (digest : String → String) (db : Db),
      (update_data_hash digest db).stage
        = db.stage.map
            (fun s => { s with hash_data := some (digest (hashInput s.row)) }))
    ∧ (∀ (r1 r2 : Rec),
        lookupKey r1 "description.document_id"
            = lookupKey r2 "description.document_id" →
        lookupKey r1 "erasure.start_time" = lookupKey r2 "erasure.start_time" →
        lookupKey r1 "erasure.end_time" = lookupKey r2 "erasure.end_time" →
        lookupKey r1 "erasure.erasure_standard_name"
            = lookupKey r2 "erasure.erasure_standard_name" →
        lookupKey r1 "erasure.timestamp" = lookupKey r2 "erasure.timestamp" →
        lookupKey r1 "erasure.target.serial"
            = lookupKey r2 "erasure.target.serial" →
        lookupKey r1 "hardware.system.imei" = lookupKey r2 "hardware.system.imei" →
        lookupKey r1 "hardware.system.imei_two"
            = lookupKey r2 "hardware.system.imei_two" →
        lookupKey r1 "hardware.system.meid" = lookupKey r2 "hardware.system.meid" →
        lookupKey r1 "hardware.system.meid_fourteen"
            = lookupKey r2 "hardware.system.meid_fourteen" →
        hashInput r1 = hashInput r2)
    ∧ (hashInput exHashNull = hashInput exHashEmpty ∧ exHashNull ≠ exHashEmpty) := by
  refine ⟨fun digest db => rfl, ?_, by decide, by decide⟩
  intro r1 r2 h1 h2 h3 h4 h5 h6 h7 h8 h9 h10
  simp only [hashInput, h1, h2, h3, h4, h5, h6, h7, h8, h9, h10]

/-- C6 witness: two rows differing only in a non-hashed field get the same
hash input. -/
theorem content_hash_fixed_fields_witness :
    hashInput [("description.document_id", some "D1"), ("erasure.state", some "Failed")]
      = hashInput exHashNull :=
  content_hash_fixed_fields.2.1 _ _ (by decide) (by decide) (by decide) (by decide)
    (by decide) (by decide) (by decide) (by decide) (by decide) (by decide)

/-! ### C5 — Dedup/merge behaviour of the Load Reconciler -/

theorem mem_dedupFirstAux {α : Type} [DecidableEq α] (l : List α) :
    ∀ (seen : List α) (a : α),
      a ∈ dedupFirstAux seen l ↔ a ∈ l ∧ a ∉ seen := by
  induction l with
  | nil => intro seen a; simp [dedupFirstAux]
  | cons x t ih =>
      intro seen a
      by_cases hx : x ∈ seen
      · rw [dedupFirstAux, if_pos hx, ih seen a]
        constructor
        · rintro ⟨h1, h2⟩
          exact ⟨List.mem_cons_of_mem _ h1, h2⟩
        · rintro ⟨h1, h2⟩
          rcases List.mem_cons.1 h1 with rfl | h1'
          · exact absurd hx h2
          · exact ⟨h1', h2⟩
      · rw [dedupFirstAux, if_neg hx]
        constructor
        · intro h
          rcases List.mem_cons.1 h with rfl | h'
          · exact ⟨List.mem_cons_self _ _, hx⟩
          · rw [ih] at h'
            exact ⟨List.mem_cons_of_mem _ h'.1,
              fun hc => h'.2 (List.mem_cons_of_mem _ hc)⟩
        · rintro ⟨h1, h2⟩
          by_cases hax : a = x
          · subst hax
            exact List.mem_cons_self _ _
          · rcases List.mem_cons.1 h1 with rfl | h1'
            · exact absurd rfl hax
            · refine List.mem_cons_of_mem _ ?_
              rw [ih]
              refine ⟨h1', fun hc => ?_⟩
              rcases List.mem_cons.1 hc with h' | h'
              · exact hax h'
              · exact h2 h'

theorem mem_dedupFirst {α : Type} [DecidableEq α] (l : List α) (a : α) :
    a ∈ dedupFirst l ↔ a ∈ l := by
  rw [dedupFirst, mem_dedupFirstAux]
  simp

theorem nodup_dedupFirstAux {α : Type} [DecidableEq α] (l : List α) :
    ∀ seen : List α, (dedupFirstAux seen l).Nodup := by
  induction l with
  | nil => intro seen; simp [dedupFirstAux]
  | cons x t ih =>
      intro seen
      by_cases hx : x ∈ seen
      · rw [dedupFirstAux, if_pos hx]
        exact ih seen
      · rw [dedupFirstAux, if_neg hx, List.nodup_cons]
        refine ⟨fun hc => ?_, ih (x :: seen)⟩
        exact ((mem_dedupFirstAux t (x :: seen) x).1 hc).2 (List.mem_cons_self _ _)

theorem nodup_dedupFirst {α : Type} [DecidableEq α] (l : List α) :
    (dedupFirst l).Nodup := nodup_dedupFirstAux l []

theorem countP_hash_eq_one (l : List StageRow) (hnodup : l.Nodup) (s : StageRow)
    (hs : s ∈ l) (huniq : ∀ t ∈ l, t.hash_data = s.hash_data → t = s) :
    l.countP (fun t => decide (t.hash_data = s.hash_data)) = 1 := by
  induction l with
  | nil => simp at hs
  | cons a t ih =>
      rw [List.nodup_cons] at hnodup
      rw [List.countP_cons]
      rcases List.mem_cons.1 hs with rfl | hst
      · have hz : t.countP (fun x => decide (x.hash_data = s.hash_data)) = 0 := by
          apply List.countP_eq_zero.2
          intro b hb
          simp only [decide_eq_true_eq]
          intro hbe
          have hbs : b = s := huniq b (List.mem_cons_of_mem _ hb) hbe
          exact hnodup.1 (hbs ▸ hb)
        simp [hz]
      · have ha : ¬ a.hash_data = s.hash_data := by
          intro he
          have has : a = s := huniq a (List.mem_cons_self _ _) he
          exact hnodup.1 (has ▸ hst)
        rw [decide_eq_false ha]
        simp only [Bool.false_eq_true, if_false, add_zero]
        exact ih hnodup.2 hst (fun t' ht' he => huniq t' (List.mem_cons_of_mem _ ht') he)

theorem run_stage (digest : String → String) (df : List Rec) (db : Db) :
    (update_data_hash digest (write_to_stage df (truncate_stage db))).stage
      = stagedRows digest df := by
  simp [update_data_hash, write_to_stage, truncate_stage, stagedRows, List.map_map]

theorem run_fact_formula (digest : String → String) (df : List Rec) (db : Db) :
    (runReconciler digest df db).fact
      = db.fact ++ dedupFirst ((stagedRows digest df).filter
          (fun s => decide (∀ f ∈ db.fact, f.hash_data ≠ s.hash_data))) := by
  have hf : (update_data_hash digest (write_to_stage df (truncate_stage db))).fact
      = db.fact := rfl
  rw [runReconciler, write_to_final, run_stage, hf]

/-- C5 (amended) — Load Reconciler re-run behaviour: one run appends exactly
the distinct staged rows whose hash is absent from the fact table (rows
whose hash already exists are skipped); a second identical run appends
nothing; and when the staged rows carry pairwise-distinct hashes, every new
hash appears exactly once in the fact table after either one or two runs.
(Without the last hypothesis two distinct staged rows sharing a hash are
both inserted in the first run — see the counterexample.) -/
theorem load_reconciler_rerun (digest : String → String) (df : List Rec) (db : Db) :
    (runReconciler digest df db).fact
      = db.fact ++ dedupFirst ((stagedRows digest df).filter
          (fun s => decide (∀ f ∈ db.fact, f.hash_data ≠ s.hash_data)))
    ∧ (runReconciler digest df (runReconciler digest df db)).fact
        = (runReconciler digest df db).fact
    ∧ ∀ s ∈ stagedRows digest df,
        List.Pairwise (fun a b => a.hash_data ≠ b.hash_data) (stagedRows digest df) →
        (∀ f ∈ db.fact, f.hash_data ≠ s.hash_data) →
        (runReconciler digest df db).fact.countP
            (fun f => decide (f.hash_data = s.hash_data)) = 1
        ∧ (runReconciler digest df (runReconciler digest df db)).fact.countP
            (fun f => decide (f.hash_data = s.hash_data)) = 1 := by
  have hsecond : (runReconciler digest df (runReconciler digest df db)).fact
      = (runReconciler digest df db).fact := by
    rw [run_fact_formula digest df (runReconciler digest df db)]
    have hnil : (stagedRows digest df).filter
        (fun s => decide (∀ f ∈ (runReconciler digest df db).fact,
          f.hash_data ≠ s.hash_data)) = [] := by
      rw [List.filter_eq_nil_iff]
      intro s hsmem
      simp only [decide_eq_true_eq, not_forall]
      by_cases hc : ∀ f ∈ db.fact, f.hash_data ≠ s.hash_data
      · refine ⟨s, ?_, by simp⟩
        rw [run_fact_formula digest df db]
        refine List.mem_append_right _ ?_
        rw [mem_dedupFirst]
        exact List.mem_filter.2 ⟨hsmem, by simpa using hc⟩
      · push_neg at hc
        obtain ⟨f, hf, hfe⟩ := hc
        refine ⟨f, ?_, by simpa using hfe⟩
        rw [run_fact_formula digest df db]
        exact List.mem_append_left _ hf
    rw [hnil]
    simp [dedupFirst, dedupFirstAux]
  refine ⟨run_fact_formula digest df db, hsecond, ?_⟩
  intro s hsmem hpair habs
  have hcount1 : (runReconciler digest df db).fact.countP
      (fun f => decide (f.hash_data = s.hash_data)) = 1 := by
    rw [run_fact_formula digest df db, List.countP_append]
    have hz : db.fact.countP (fun f => decide (f.hash_data = s.hash_data)) = 0 := by
      apply List.countP_eq_zero.2
      intro f hf
      simpa using habs f hf
    rw [hz, Nat.zero_add]
    apply countP_hash_eq_one _ (nodup_dedupFirst _) s
    · rw [mem_dedupFirst]
      exact List.mem_filter.2 ⟨hsmem, by simpa using habs⟩
    · intro t htD hte
      have htmem : t ∈ stagedRows digest df := by
        rw [mem_dedupFirst] at htD
        exact List.mem_of_mem_filter htD
      by_contra htne
      exact hpair.forall (fun a b hab => (Ne.symm hab : _)) htmem hsmem htne hte
  exact ⟨hcount1, by rw [hsecond]; exact hcount1⟩

/-- A batch row (document D1, successful erasure). -/
def exRowA : Rec :=
  [("description.document_id", some "D1"), ("erasure.state", some "Successful")]

/-- A distinct row agreeing with `exRowA` on all ten hashed fields. -/
def exRowB : Rec :=
  [("description.document_id", some "D1"), ("erasure.state", some "Failed")]

/-- C5 counterexample: two distinct cleansed rows that agree on every hashed
field produce one content hash but two fact rows, so running the sequence
twice does NOT insert the batch's distinct hashes exactly once — the hash
appears twice (the second run still inserts zero new rows). -/
theorem load_reconciler_counterexample :
    hashInput (coerceRec exRowA) = hashInput (coerceRec exRowB)
    ∧ exRowA ≠ exRowB
    ∧ (runReconciler (fun s => s) [exRowA, exRowB]
        (runReconciler (fun s => s) [exRowA, exRowB] (Db.mk [] []))).fact.countP
          (fun f => decide (f.hash_data = some (hashInput (coerceRec exRowA)))) = 2 := by
  decide

/-- C5 witness: a one-row batch against an empty fact table — its hash is
inserted exactly once, and stays single after a second run. -/
theorem load_reconciler_rerun_witness :
    (runReconciler (fun s => s) [exRowA] (Db.mk [] [])).fact.countP
        (fun f => decide (f.hash_data = some (hashInput (coerceRec exRowA)))) = 1
    ∧ (runReconciler (fun s => s) [exRowA]
        (runReconciler (fun s => s) [exRowA] (Db.mk [] []))).fact.countP
        (fun f => decide (f.hash_data = some (hashInput (coerceRec exRowA)))) = 1 :=
  (load_reconciler_rerun (fun s => s) [exRowA] (Db.mk [] [])).2.2
    (StageRow.mk (coerceRec exRowA) (some (hashInput (coerceRec exRowA))))
    (by decide) (by decide) (by decide)

/-! ### C7 / C10 — API sentinel, checkpoint advance, cycle abort -/

/-- Python `str.find` over character lists: index of the first occurrence. -/
def findSubAux (pat : List Char) : List Char → Option Nat
  | [] => if pat.isPrefixOf ([] : List Char) then some 0 else none
  | c :: t =>
    if pat.isPrefixOf (c :: t) then some 0
    else (findSubAux pat t).map (fun i => i + 1)

/-- `s.find(sub)`: first index, `-1` when absent. -/
def pyFind (s sub : String) : Int :=
  match findSubAux sub.data s.data with
  | some i => (i : Int)
  | none => -1

/-- `call_blancco_api`: a 200 response returns the body; otherwise the
`NO REPORTS FOUND` sentinel is recognized by inspecting the response content
(`response.text.find('NO REPORTS FOUND') > 0`) and yields `None`; any other
non-200 response is logged and raised (`Except.error`). -/
def call_blancco_api (status : Nat) (body : String) :
    Except String (Option String) :=
  if status = 200 then Except.ok (some body)
  else if pyFind body "NO REPORTS FOUND" > 0 then Except.ok none
  else Except.error body

/-- Columns of `pd.DataFrame(reports)`: the union of record keys in
first-seen order (an empty record list yields a frame with no columns). -/
def dfColumns (reports : List Rec) : List String :=
  dedupFirst (reports.map keysOf).flatten

/-- The cleansing prologue of `write_to_stage`:
`df[pd.notnull(df['description.document_id'])]` raises `KeyError` when the
column is absent — in particular on the empty frame built from zero
records; otherwise the three cleansing operations run. -/
def stage_cleanse (df : List Rec) : Except String (List Rec) :=
  if "description.document_id" ∈ dfColumns df then
    Except.ok (cleanse truncate_columns_db df)
  else Except.error "KeyError: description.document_id"

/-- Assembly of the whole batch: `parse_report` over every report node,
concatenated — any `KeyError` raised inside a report's disk join propagates
and the batch is not built. -/
def assembleAll (nodes : List Xml) : Except String (List Rec) :=
  (nodes.mapM parse_report).map List.flatten

/-- One iteration of the `while` loop of `main` (database variant) at
checkpoint `cp`, for a non-idle window: the API call, report assembly over
the parsed report nodes, and the staging/hash/merge pipeline (`dbOk` stands
for the external database steps succeeding).  `some cp'` is the checkpoint
persisted by `write_control_file` on a completed cycle; `none` means the
cycle aborted — `main` logs the exception and exits non-zero with the
checkpoint unchanged. -/
def cycleOutcome (cp : Int) (status : Nat) (body : String)
    (reportNodes : List Xml) (dbOk : Bool) : Option Int :=
  match call_blancco_api status body with
  | Except.error _ => none
  | Except.ok none => some (cp + 3600)
  | Except.ok (some _) =>
      match assembleAll reportNodes with
      | Except.error _ => none
      | Except.ok reports =>
          match stage_cleanse reports with
          | Except.error _ => none
          | Except.ok _ => if dbOk then some (cp + 3600) else none

/-- C7 — checkpoint advances exactly on success, and the no-reports sentinel
counts as success: a 200 response is a success carrying the document; a
non-200 response whose content carries the sentinel is a successful empty
cycle that still advances the checkpoint; any other non-200 response raises
and the cycle aborts with the checkpoint unchanged; and when any later
step of the cycle raises — the assembly itself, the staging cleanse, or the
database steps — the cycle likewise aborts. -/
theorem checkpoint_advance_on_success (cp : Int) (status : Nat) (body : String)
    (nodes : List Xml) (dbOk : Bool) :
    (status = 200 → call_blancco_api status body = Except.ok (some body))
    ∧ (status ≠ 200 → pyFind body "NO REPORTS FOUND" > 0 →
        call_blancco_api status body = Except.ok none
        ∧ cycleOutcome cp status body nodes dbOk = some (cp + 3600))
    ∧ (status ≠ 200 → ¬ pyFind body "NO REPORTS FOUND" > 0 →
        call_blancco_api status body = Except.error body
        ∧ cycleOutcome cp status body nodes dbOk = none)
    ∧ (status = 200 →
        (dbOk = false
          ∨ (∃ msg, assembleAll nodes = Except.error msg)
          ∨ (∃ reports, assembleAll nodes = Except.ok reports
              ∧ ∃ msg, stage_cleanse reports = Except.error msg)) →
        cycleOutcome cp status body nodes dbOk = none) := by
  refine ⟨?_, ?_, ?_, ?_⟩
  · intro hs
    rw [call_blancco_api, if_pos hs]
  · intro hs hf
    have hc : call_blancco_api status body = Except.ok none := by
      rw [call_blancco_api, if_neg hs, if_pos hf]
    exact ⟨hc, by rw [cycleOutcome, hc]⟩
  · intro hs hf
    have hc : call_blancco_api status body = Except.error body := by
      rw [call_blancco_api, if_neg hs, if_neg hf]
    exact ⟨hc, by rw [cycleOutcome, hc]⟩
  · intro hs hfail
    subst hs
    rcases hfail with hdb | ⟨msg, hmsg⟩ | ⟨reports, hrep, msg, hmsg⟩
    · cases ha : assembleAll nodes with
      | error e => simp [cycleOutcome, call_blancco_api, ha]
      | ok reports =>
        cases hcl : stage_cleanse reports with
        | error e => simp [cycleOutcome, call_blancco_api, ha, hcl]
        | ok cleansed => simp [cycleOutcome, call_blancco_api, ha, hcl, hdb]
    · simp [cycleOutcome, call_blancco_api, hmsg]
    · simp [cycleOutcome, call_blancco_api, hrep, hmsg]

/-- C7 witness: a 404 body carrying the sentinel advances the checkpoint; a
404 auth-error body aborts; a failing database step aborts a 200 cycle. -/
theorem checkpoint_advance_on_success_witness :
    cycleOutcome 0 404 "<e> NO REPORTS FOUND </e>" [] true = some 3600
    ∧ cycleOutcome 0 404 "Authentication failed" [] true = none
    ∧ cycleOutcome 0 200 "<report/>" [] false = none := by
  refine ⟨((checkpoint_advance_on_success 0 404 "<e> NO REPORTS FOUND </e>" [] true).2.1
      (by decide) (by decide)).2,
    ((checkpoint_advance_on_success 0 404 "Authentication failed" [] true).2.2.1
      (by decide) (by decide)).2,
    (checkpoint_advance_on_success 0 200 "<report/>" [] false).2.2.2 rfl (Or.inl rfl)⟩

/-- C10 — a non-empty API response that assembles (successfully) to zero
records aborts the cycle: the empty tabular batch has no columns, so the
document-id filter of the staging step raises `KeyError`, the cycle aborts
(non-zero exit) and the checkpoint is not advanced; a report node without
erasure children contributes no records at all. -/
theorem empty_assembly_aborts (cp : Int) (status : Nat) (body : String)
    (nodes : List Xml) (dbOk : Bool)
    (hs : status = 200)
    (hempty : assembleAll nodes = Except.ok []) :
    stage_cleanse ([] : List Rec)
        = Except.error "KeyError: description.document_id"
    ∧ cycleOutcome cp status body nodes dbOk = none
    ∧ ∀ r : Xml, erasureNodes r = [] → parse_report r = Except.ok [] := by
  have hcl : stage_cleanse ([] : List Rec)
      = Except.error "KeyError: description.document_id" := by
    rw [stage_cleanse]
    simp [dfColumns, dedupFirst, dedupFirstAux]
  refine ⟨hcl, ?_, ?_⟩
  · subst hs
    simp [cycleOutcome, call_blancco_api, hempty, hcl]
  · intro r hr
    simp [parse_report, eraseRecs, hr, List.mapM_nil]
    rfl

/-- A report whose erasure section is present but empty. -/
def exReportNoErasures : Xml :=
  Xml.node "report" none
    [Xml.node "blancco_data" none
      [Xml.node "description" none [xLeaf "document_id" "42"],
       Xml.node "blancco_erasure_report" none [Xml.node "erasures" none []]]]

/-- C10 witness: a 200 response whose single report has no erasure children
assembles successfully to the empty batch and the cycle aborts. -/
theorem empty_assembly_aborts_witness :
    assembleAll [exReportNoErasures] = Except.ok []
    ∧ cycleOutcome 7 200 "<doc/>" [exReportNoErasures] true = none := by
  refine ⟨by rfl, ?_⟩
  exact (empty_assembly_aborts 7 200 "<doc/>" [exReportNoErasures] true rfl
    (by rfl)).2.1

/-! ### C8 — `clean_data` of the file-export variant -/

/-- The caller-visible effect of `clean_data(df)` in `blancco_api_to_db.py`:
`df.drop_duplicates(keep='first', inplace=True)` mutates the shared frame,
but `df = df[pd.notnull(df['description.document_id'])].copy()` rebinds the
local name to a copy and the 4000-character truncation is applied to that
copy; the function returns `None`, so the document-id filter and the
truncation are discarded and the caller's frame only has duplicates
removed. -/
def clean_data_visible (df : List Rec) : List Rec := dedupFirst df

/-- A 5000-character free-text value. -/
def longComment : String := String.mk (List.replicate 5000 'a')

def exRowNullId : Rec :=
  [("description.document_id", none),
   ("user_data.fields.comments", some longComment)]

def exRowWithId : Rec :=
  [("description.document_id", some "D9"),
   ("user_data.fields.comments", some longComment)]

def exRowUnlisted : Rec :=
  [("description.document_id", some "D8"),
   ("hardware.system.model", some longComment)]

/-- C8 — Batch Cleanser divergence in `blancco_api_to_db.py`: the fully
cleansed frame (duplicates removed, null-document-id rows dropped, listed
free-text fields truncated to exactly 4000 characters, unlisted fields
untouched) is computed by `clean_data` but discarded; the batch visible to
the subsequent export step (`write_data_files` / `export_raw_data`) only has
duplicates removed — a null-id record survives and a 5000-character listed
field keeps all 5000 characters. -/
theorem clean_data_divergence :
    clean_data_visible [exRowNullId] = [exRowNullId]
    ∧ cleanse truncate_columns_file [exRowNullId] = []
    ∧ lookupKey ((clean_data_visible [exRowWithId]).headD [])
        "user_data.fields.comments" = some (some longComment)
    ∧ longComment.length = 5000
    ∧ lookupKey ((cleanse truncate_columns_file [exRowWithId]).headD [])
        "user_data.fields.comments" = some (some (pyTruncate longComment))
    ∧ (pyTruncate longComment).length = 4000
    ∧ lookupKey ((cleanse truncate_columns_file [exRowUnlisted]).headD [])
        "hardware.system.model" = some (some longComment)
    ∧ clean_data_visible
        [[(("description.document_id" : String), some "D7")],
         [(("description.document_id" : String), some "D7")]]
        = [[(("description.document_id" : String), some "D7")]] := by
  refine ⟨rfl, rfl, rfl, ?_, rfl, ?_, rfl, by decide⟩
  · show (List.replicate 5000 'a').length = 5000
    rw [List.length_replicate]
  · show ((List.replicate 5000 'a').take 4000).length = 4000
    rw [List.length_take, List.length_replicate]
    norm_num

end Blancco
